import Mathlib

/-!
Verification of the HiveNet distributed-MLS Distributed Delivery Service.

This file gives a shallow embedding, in Lean 4, of the parts of the C++
implementation that the verified properties speak about:

* the commit Choice function (distributed_ds.hpp, DistributedDeliveryService::chooseCommit);
* the CAC Broadcast state machine (cac_broadcast.hpp): emitSignature,
  receivedWitness, receivedReady, validateMessage, broadcast;
* the CAC signature conversion (cac_signature.hpp, CACSignature::verifyAndConvert);
* the Restrained Consensus message handler (restrained_consensus.hpp,
  RestrainedConsensus::handleRestrainedCons and checkCompletion);
* the epoch gating of the DDS engine (distributed_ds.hpp, handleGossipDelivery,
  handleCascadeConsensusReception, advanceEpoch);
* the PBFT commit collection (full_consensus.hpp, FullConsensus::handleCommit);
* the Murmur gossip broadcaster (gossip_bcast.hpp, receiveMessage,
  dispatchMessage, newEpoch, updateSample).

Modelling conventions:

* machine integers are Nat; wherever C++ unsigned wrap-around matters it is
  made explicit in the definition;
* std::map is modelled by a key-sorted association list (Mmap below), so that
  iteration order of the model matches iteration order of the C++ map;
  operator[] (which default-constructs a missing entry) is modelled by mupd;
* std::set of integers is modelled by Finset Nat; its iteration order
  (sorted) is recovered with Finset.sort where the code iterates;
* opaque byte strings (identities, hashes, payloads) are modelled by Nat,
  their byte-lexicographic order by the order on Nat;
* callbacks are outputs: every transition function returns the list of
  callback invocations (emitted signatures, transmits, deliveries) it makes;
* the MLS library (mlspp) and the ExtendedMLSState facade
  (extended_mls_state.hpp, which is not part of the sources under
  verification) are black boxes: signing and verification are oracles
  carried by the model state, as §4.A of the specification describes them.
-/

set_option autoImplicit false

namespace DMLS

/-! ## Sorted association lists: the model of std::map

The C++ code uses std::map keyed by message references (byte strings, here
Nat). A std::map iterates its entries in strictly increasing key order and
operator[] inserts a default-constructed value for a missing key. Mmap
mirrors both behaviours. -/

/-- An association list; the invariant Msorted below says its keys are
strictly increasing, as in a std::map. -/
abbrev Mmap (α : Type) := List (Nat × α)

/-- Keys are strictly increasing (std::map iteration order). -/
def Msorted {α : Type} (l : Mmap α) : Prop :=
  l.Pairwise (fun a b => a.1 < b.1)

instance {α : Type} (l : Mmap α) : Decidable (Msorted l) := by
  unfold Msorted; infer_instance

/-- Lookup by key (std::map::find). -/
def mfind {α : Type} : Mmap α → Nat → Option α
  | [], _ => none
  | (k, v) :: t, k0 => if k0 = k then some v else mfind t k0

/-- Lookup with a default, as reading through operator[] does. -/
def mfindD {α : Type} (l : Mmap α) (k : Nat) (d : α) : α :=
  (mfind l k).getD d

/-- Key membership (std::map::contains). -/
def mkeys {α : Type} (l : Mmap α) : List Nat :=
  l.map Prod.fst

/-- operator[] followed by a mutation of the entry: applies f to the
existing value (some v) or to none when the entry is default-constructed
fresh; keeps keys sorted. -/
def mupd {α : Type} : Mmap α → Nat → (Option α → α) → Mmap α
  | [], k, f => [(k, f none)]
  | (k0, v) :: t, k, f =>
    if k < k0 then (k, f none) :: (k0, v) :: t
    else if k = k0 then (k0, f (some v)) :: t
    else (k0, v) :: mupd t k f

theorem mfind_eq_none {α : Type} (l : Mmap α) (k : Nat) (h : k ∉ mkeys l) :
    mfind l k = none := by
  induction l with
  | nil => simp [mfind]
  | cons hd t ih =>
    obtain ⟨k0, v⟩ := hd
    simp only [mkeys, List.map_cons, List.mem_cons] at h
    push_neg at h
    simp only [mfind, if_neg h.1]
    exact ih (by simpa [mkeys] using h.2)

theorem mem_mkeys_iff {α : Type} (l : Mmap α) (k : Nat) :
    k ∈ mkeys l ↔ ∃ v, (k, v) ∈ l := by
  simp only [mkeys, List.mem_map]
  constructor
  · rintro ⟨⟨k0, v⟩, hp, rfl⟩
    exact ⟨v, hp⟩
  · rintro ⟨v, hv⟩
    exact ⟨(k, v), hv, rfl⟩

theorem mem_mkeys_mupd {α : Type} (l : Mmap α) (k k' : Nat) (f : Option α → α) :
    k' ∈ mkeys (mupd l k f) ↔ k' = k ∨ k' ∈ mkeys l := by
  induction l with
  | nil => simp [mupd, mkeys]
  | cons hd t ih =>
    obtain ⟨k0, v⟩ := hd
    by_cases h1 : k < k0
    · simp [mupd, h1, mkeys]
    · by_cases h2 : k = k0
      · subst h2
        have hstep : mupd ((k, v) :: t) k f = (k, f (some v)) :: t := by
          simp [mupd, h1]
        rw [hstep]
        simp only [mkeys, List.map_cons, List.mem_cons]
        tauto
      · simp only [mupd, if_neg h1, if_neg h2, mkeys, List.map_cons, List.mem_cons]
        rw [show (List.map Prod.fst (mupd t k f) = mkeys (mupd t k f)) from rfl, ih]
        simp only [mkeys]
        tauto

theorem mfind_mupd_self {α : Type} (l : Mmap α) (k : Nat) (f : Option α → α)
    (hs : Msorted l) : mfind (mupd l k f) k = some (f (mfind l k)) := by
  induction l with
  | nil => simp [mupd, mfind]
  | cons hd t ih =>
    obtain ⟨k0, v⟩ := hd
    rcases Nat.lt_trichotomy k k0 with h | h | h
    · have hnone : mfind ((k0, v) :: t) k = none := by
        apply mfind_eq_none
        simp only [mkeys, List.map_cons, List.mem_cons]
        push_neg
        refine ⟨Nat.ne_of_lt h, ?_⟩
        intro hmem
        have hall := (List.pairwise_cons.mp hs).1
        rcases List.mem_map.mp hmem with ⟨p, hp, hpk⟩
        have := hall p hp
        omega
      rw [hnone]
      simp [mupd, h, mfind]
    · subst h
      simp [mupd, mfind]
    · have hlt : ¬ k < k0 := Nat.not_lt.mpr (Nat.le_of_lt h)
      have hne : ¬ k = k0 := Nat.ne_of_gt h
      simp only [mupd, if_neg hlt, if_neg hne, mfind, if_neg hne]
      exact ih (List.Pairwise.of_cons hs)

theorem mfind_mupd_ne {α : Type} (l : Mmap α) (k k' : Nat) (f : Option α → α)
    (hne : k' ≠ k) : mfind (mupd l k f) k' = mfind l k' := by
  induction l with
  | nil => simp [mupd, mfind, hne]
  | cons hd t ih =>
    obtain ⟨k0, v⟩ := hd
    by_cases h1 : k < k0
    · simp [mupd, h1, mfind, hne]
    · by_cases h2 : k = k0
      · subst h2
        simp [mupd, h1, mfind, hne]
      · simp only [mupd, if_neg h1, if_neg h2, mfind]
        by_cases h3 : k' = k0
        · simp [h3]
        · simp [h3, ih]

theorem msorted_mupd {α : Type} (l : Mmap α) (k : Nat) (f : Option α → α)
    (hs : Msorted l) : Msorted (mupd l k f) := by
  induction l with
  | nil =>
    simp [mupd, Msorted]
  | cons hd t ih =>
    obtain ⟨k0, v⟩ := hd
    have hs' : Msorted t := List.Pairwise.of_cons hs
    have hhd : ∀ p ∈ t, k0 < p.1 := (List.pairwise_cons.mp hs).1
    by_cases h1 : k < k0
    · simp only [mupd, if_pos h1]
      refine List.pairwise_cons.mpr ⟨?_, hs⟩
      intro p hp
      rcases List.mem_cons.mp hp with hp | hp
      · simpa [hp] using h1
      · exact Nat.lt_trans h1 (hhd p hp)
    · by_cases h2 : k = k0
      · subst h2
        simp only [mupd, if_neg h1, if_pos rfl]
        exact List.pairwise_cons.mpr ⟨hhd, hs'⟩
      · have h3 : k0 < k := by omega
        simp only [mupd, if_neg h1, if_neg h2]
        refine List.pairwise_cons.mpr ⟨?_, ih hs'⟩
        intro p hp
        have hpk : p.1 = k ∨ p.1 ∈ mkeys t :=
          (mem_mkeys_mupd t k p.1 f).mp (by exact List.mem_map_of_mem Prod.fst hp)
        rcases hpk with hpk | hpk
        · omega
        · rcases List.mem_map.mp hpk with ⟨q, hq, hqk⟩
          have := hhd q hq
          omega

theorem mkeys_mupd_of_mem {α : Type} (l : Mmap α) (k : Nat) (f : Option α → α)
    (hs : Msorted l) (h : k ∈ mkeys l) : mkeys (mupd l k f) = mkeys l := by
  induction l with
  | nil => simp [mkeys] at h
  | cons hd t ih =>
    obtain ⟨k0, v⟩ := hd
    have hhd : ∀ p ∈ t, k0 < p.1 := (List.pairwise_cons.mp hs).1
    by_cases h2 : k = k0
    · subst h2
      simp [mupd, mkeys]
    · have hmem : k ∈ mkeys t := by
        rcases (show k = k0 ∨ k ∈ List.map Prod.fst t by
          simpa [mkeys] using h) with h0 | h0
        · exact absurd h0 h2
        · exact h0
      have h1 : ¬ k < k0 := by
        rcases List.mem_map.mp hmem with ⟨q, hq, hqk⟩
        have := hhd q hq
        omega
      simp only [mupd, if_neg h1, if_neg h2, mkeys, List.map_cons]
      have := ih (List.Pairwise.of_cons hs) hmem
      simpa [mkeys] using this

/-- Updating an existing key with a mutation that preserves a projection g
of the value leaves the g-projected map unchanged (used to carry witness
sets across READY emissions, which only touch the ready sets). -/
theorem mupd_proj_eq {α β : Type} (l : Mmap α) (k : Nat) (f : Option α → α)
    (g : α → β) (hs : Msorted l) (hk : k ∈ mkeys l)
    (hf : ∀ v, g (f (some v)) = g v) :
    (mupd l k f).map (fun p => (p.1, g p.2)) = l.map (fun p => (p.1, g p.2)) := by
  induction l with
  | nil => simp [mkeys] at hk
  | cons hd t ih =>
    obtain ⟨k0, v⟩ := hd
    have hhd : ∀ p ∈ t, k0 < p.1 := (List.pairwise_cons.mp hs).1
    by_cases h2 : k = k0
    · subst h2
      simp [mupd, hf]
    · have hmem : k ∈ mkeys t := by
        rcases (show k = k0 ∨ k ∈ List.map Prod.fst t by
          simpa [mkeys] using hk) with h0 | h0
        · exact absurd h0 h2
        · exact h0
      have h1 : ¬ k < k0 := by
        rcases List.mem_map.mp hmem with ⟨q, hq, hqk⟩
        have := hhd q hq
        omega
      simp only [mupd, if_neg h1, if_neg h2, List.map_cons]
      rw [ih (List.Pairwise.of_cons hs) hmem]

end DMLS

namespace DMLS.Choice

/-!
## C1 — the commit Choice function

Embedding of DistributedDeliveryService::chooseCommit (distributed_ds.hpp).
The function scans the whole candidate vector, starting from candidate 0 as
the incumbent, and replaces the incumbent whenever the scanned commit has
strictly more proposals, or equally many proposals and a strictly smaller
sender leaf index.

getCommitContent of the ExtendedMLSState facade returns the committing
member leaf index and the vector of proposals of a commit; a Commit here
carries those two observations (sender, propCount = proposals.size()) plus
the identity of the underlying MLS message (body), which is what the
function returns.
-/

structure Commit where
  sender : Nat
  propCount : Nat
  body : Nat
deriving DecidableEq, Repr

/-- The comparison of the loop body of chooseCommit: candidate c replaces
the incumbent best iff this holds. -/
def prefOver (c best : Commit) : Prop :=
  c.propCount > best.propCount ∨
    (c.propCount = best.propCount ∧ best.sender > c.sender)

instance (c best : Commit) : Decidable (prefOver c best) := by
  unfold prefOver; infer_instance

/-- One iteration of the loop of chooseCommit. -/
def chooseStep (best c : Commit) : Commit :=
  if prefOver c best then c else best

/-- DistributedDeliveryService::chooseCommit: incumbent commits[0], then a
pass over the whole vector (the C++ loop re-visits commits[0], which never
replaces itself). -/
def chooseCommit (commits : List Commit) (h : commits ≠ []) : Commit :=
  commits.foldl chooseStep (commits.head h)

theorem prefOver_irrefl (c : Commit) : ¬ prefOver c c := by
  simp [prefOver]

theorem prefOver_trans {a b c : Commit} (h1 : prefOver a b) (h2 : prefOver b c) :
    prefOver a c := by
  rcases h1 with h1 | ⟨h1, h1s⟩ <;> rcases h2 with h2 | ⟨h2, h2s⟩ <;>
    simp only [prefOver] <;> omega

theorem prefOver_neg_trans {b c r : Commit} (h1 : ¬ prefOver c b)
    (h2 : prefOver c r) : prefOver b r := by
  simp only [prefOver, not_or, not_and, not_lt] at h1
  rcases h2 with h2 | ⟨h2, h2s⟩ <;> simp only [prefOver] <;> omega

theorem prefOver_total {a b : Commit}
    (h : (a.propCount, a.sender) ≠ (b.propCount, b.sender)) :
    prefOver a b ∨ prefOver b a := by
  have h2 : a.propCount ≠ b.propCount ∨ a.sender ≠ b.sender := by
    by_contra hc
    push_neg at hc
    exact h (by rw [hc.1, hc.2])
  simp only [prefOver]
  omega

theorem chooseStep_cases (b c : Commit) : chooseStep b c = b ∨ chooseStep b c = c := by
  unfold chooseStep
  split <;> simp

theorem foldl_chooseStep_mem (l : List Commit) :
    ∀ b, l.foldl chooseStep b ∈ b :: l := by
  induction l with
  | nil =>
    intro b
    exact List.mem_cons_self b []
  | cons c t ih =>
    intro b
    simp only [List.foldl_cons, List.mem_cons]
    have h := ih (chooseStep b c)
    rcases List.mem_cons.mp h with h | h
    · rcases chooseStep_cases b c with he | he
      · exact Or.inl (h.trans he)
      · exact Or.inr (Or.inl (h.trans he))
    · exact Or.inr (Or.inr h)

theorem foldl_chooseStep_max (l : List Commit) :
    ∀ b, ∀ x ∈ b :: l, ¬ prefOver x (l.foldl chooseStep b) := by
  induction l with
  | nil =>
    intro b x hx
    rcases List.mem_cons.mp hx with h | h
    · rw [h]
      simpa using prefOver_irrefl b
    · simp at h
  | cons c t ih =>
    intro b x hx
    simp only [List.foldl_cons]
    rcases List.mem_cons.mp hx with hxb | hx2
    · rw [hxb]
      by_cases hp : prefOver c b
      · intro hcontra
        have hstep : chooseStep b c = c := by simp [chooseStep, hp]
        have hcr : ¬ prefOver c (t.foldl chooseStep (chooseStep b c)) := by
          apply ih (chooseStep b c)
          rw [hstep]
          exact List.mem_cons_self c t
        exact hcr (prefOver_trans hp hcontra)
      · have hstep : chooseStep b c = b := by simp [chooseStep, hp]
        apply ih (chooseStep b c)
        rw [hstep]
        exact List.mem_cons_self b t
    · rcases List.mem_cons.mp hx2 with hxc | hxt
      · rw [hxc]
        by_cases hp : prefOver c b
        · have hstep : chooseStep b c = c := by simp [chooseStep, hp]
          apply ih (chooseStep b c)
          rw [hstep]
          exact List.mem_cons_self c t
        · intro hcontra
          have hstep : chooseStep b c = b := by simp [chooseStep, hp]
          have hbr : ¬ prefOver b (t.foldl chooseStep (chooseStep b c)) := by
            apply ih (chooseStep b c)
            rw [hstep]
            exact List.mem_cons_self b t
          exact hbr (prefOver_neg_trans hp hcontra)
      · exact ih (chooseStep b c) x (List.mem_cons_of_mem _ hxt)

/-- C1: chooseCommit returns a candidate that no other candidate beats
(strictly more proposals, or equally many and a smaller sender leaf index),
i.e. the commit with the greatest number of proposals tie-broken by the
smallest sender leaf index; and on any permutation of a candidate list in
which no two candidates agree on both proposal count and sender leaf index,
it returns the same commit. -/
theorem chooseCommit_correct (l : List Commit) (h : l ≠ []) :
    (chooseCommit l h ∈ l ∧ ∀ c ∈ l, ¬ prefOver c (chooseCommit l h)) ∧
    (∀ (l' : List Commit) (h' : l' ≠ []), l.Perm l' →
      l.Pairwise (fun a b => (a.propCount, a.sender) ≠ (b.propCount, b.sender)) →
      chooseCommit l h = chooseCommit l' h') := by
  have hmem : ∀ (m : List Commit) (hm : m ≠ []), chooseCommit m hm ∈ m := by
    intro m hm
    unfold chooseCommit
    have h0 := foldl_chooseStep_mem m (m.head hm)
    rcases List.mem_cons.mp h0 with h0 | h0
    · rw [h0]; exact List.head_mem hm
    · exact h0
  have hmax : ∀ (m : List Commit) (hm : m ≠ []),
      ∀ c ∈ m, ¬ prefOver c (chooseCommit m hm) := by
    intro m hm c hc
    exact foldl_chooseStep_max m (m.head hm) c (List.mem_cons_of_mem _ hc)
  refine ⟨⟨hmem l h, hmax l h⟩, ?_⟩
  intro l' h' hperm hpair
  have hr : chooseCommit l h ∈ l := hmem l h
  have hr' : chooseCommit l' h' ∈ l := hperm.symm.subset (hmem l' h')
  have h1 : ¬ prefOver (chooseCommit l' h') (chooseCommit l h) :=
    hmax l h _ hr'
  have h2 : ¬ prefOver (chooseCommit l h) (chooseCommit l' h') :=
    hmax l' h' _ (hperm.subset hr)
  by_contra hne
  have hkey : (chooseCommit l h).propCount = (chooseCommit l' h').propCount ∧
      (chooseCommit l h).sender = (chooseCommit l' h').sender := by
    by_contra hk
    have : ((chooseCommit l h).propCount, (chooseCommit l h).sender) ≠
        ((chooseCommit l' h').propCount, (chooseCommit l' h').sender) := by
      intro he
      exact hk ⟨congrArg Prod.fst he, congrArg Prod.snd he⟩
    rcases prefOver_total this with hp | hp
    · exact h2 hp
    · exact h1 hp
  have hsymm : Symmetric
      (fun a b : Commit => (a.propCount, a.sender) ≠ (b.propCount, b.sender)) := by
    intro a b hab he
    exact hab he.symm
  have := hpair.forall hsymm hr hr' hne
  exact this (by
    rw [hkey.1, hkey.2])

/-- Concrete instantiation of C1: two candidate lists that are permutations
of one another, with distinct (count, sender) keys, give the same chosen
commit, namely the unbeaten one. -/
theorem chooseCommit_correct_witness :
    (chooseCommit [⟨1, 2, 10⟩, ⟨0, 2, 20⟩, ⟨3, 1, 30⟩] (by simp) ∈
        ([⟨1, 2, 10⟩, ⟨0, 2, 20⟩, ⟨3, 1, 30⟩] : List Commit)) ∧
    chooseCommit [⟨1, 2, 10⟩, ⟨0, 2, 20⟩, ⟨3, 1, 30⟩] (by simp) =
      chooseCommit [⟨3, 1, 30⟩, ⟨0, 2, 20⟩, ⟨1, 2, 10⟩] (by simp) := by
  have h := chooseCommit_correct [⟨1, 2, 10⟩, ⟨0, 2, 20⟩, ⟨3, 1, 30⟩] (by simp)
  refine ⟨h.1.1, h.2 [⟨3, 1, 30⟩, ⟨0, 2, 20⟩, ⟨1, 2, 10⟩] (by simp) (by decide)
    (by decide)⟩

end DMLS.Choice

namespace DMLS.Gate

/-!
## C5 — epoch gating of the DDS engine

Embedding of DistributedDeliveryService::handleGossipDelivery,
handleCascadeConsensusReception and advanceEpoch (distributed_ds.hpp).
A message here is the pair (epoch, payload identity); state is reduced to
the fields those three functions read and write: whether the member has a
group state yet, the current epoch of that state, and the two future
buffers. The bodies of handleProposal and handleCascadeConsensusMessage
(which consult the MLS black box and feed the lower layers) are represented
by processing events, which is all this property observes of them.
-/

/-- An MLS message as the gating code sees it: its epoch() and an identity
for the payload. -/
structure Msg where
  epoch : Nat
  payload : Nat
deriving DecidableEq, Repr

/-- A processing event: the gated message was handed to handleProposal or
to handleCascadeConsensusMessage. -/
inductive Event where
  | procProposal (m : Msg)
  | procCC (m : Msg)
deriving DecidableEq, Repr

/-- State read and written by the gating functions. -/
structure St where
  hasState : Bool
  epoch : Nat
  futureProposals : List Msg
  futureCC : List Msg
deriving DecidableEq, Repr

/-- DistributedDeliveryService::handleGossipDelivery. -/
def handleGossipDelivery (st : St) (m : Msg) : St × List Event :=
  if !st.hasState then
    ({ st with futureProposals := st.futureProposals ++ [m] }, [])
  else if m.epoch < st.epoch then
    (st, [])
  else if m.epoch > st.epoch then
    ({ st with futureProposals := st.futureProposals ++ [m] }, [])
  else
    (st, [Event.procProposal m])

/-- DistributedDeliveryService::handleCascadeConsensusReception. -/
def handleCascadeConsensusReception (st : St) (m : Msg) : St × List Event :=
  if !st.hasState then
    ({ st with futureCC := st.futureCC ++ [m] }, [])
  else if m.epoch < st.epoch then
    (st, [])
  else if m.epoch > st.epoch then
    ({ st with futureCC := st.futureCC ++ [m] }, [])
  else
    (st, [Event.procCC m])

/-- The buffer sweep of advanceEpoch over one list: process entries whose
epoch equals the current epoch and erase them, erase entries with a smaller
epoch, keep the rest, preserving order. -/
def sweep (ep : Nat) (mk : Msg → Event) : List Msg → List Msg × List Event
  | [] => ([], [])
  | m :: t =>
    let (keep, evs) := sweep ep mk t
    if m.epoch = ep then (keep, mk m :: evs)
    else if m.epoch < ep then (keep, evs)
    else (m :: keep, evs)

/-- DistributedDeliveryService::advanceEpoch, restricted to the future
buffers (it also clears the per-epoch commit bookkeeping, which this
property does not mention). Each unlocked proposal goes through
handleProposal and each unlocked cascade message through
handleCascadeConsensusMessage, in buffer order, proposals first as in the
source. -/
def advanceEpoch (st : St) : St × List Event :=
  let (keepP, evP) := sweep st.epoch Event.procProposal st.futureProposals
  let (keepC, evC) := sweep st.epoch Event.procCC st.futureCC
  ({ st with futureProposals := keepP, futureCC := keepC }, evP ++ evC)

theorem sweep_spec (ep : Nat) (mk : Msg → Event) (l : List Msg) :
    (sweep ep mk l).1 = l.filter (fun m => decide (ep < m.epoch)) ∧
    (sweep ep mk l).2 = (l.filter (fun m => decide (m.epoch = ep))).map mk := by
  induction l with
  | nil => simp [sweep]
  | cons m t ih =>
    by_cases h1 : m.epoch = ep
    · have h2 : ¬ ep < m.epoch := by omega
      simp [sweep, h1, h2, ih.1, ih.2, List.filter_cons]
    · by_cases h2 : m.epoch < ep
      · have h3 : ¬ ep < m.epoch := by omega
        simp [sweep, h1, h2, h3, ih.1, ih.2, List.filter_cons]
      · have h3 : ep < m.epoch := by omega
        simp [sweep, h1, h2, h3, ih.1, ih.2, List.filter_cons]

/-- C5: (pre-group or future epoch) the message is only appended to the
corresponding future buffer; (past epoch) it is dropped with no state
change; (current epoch) it is processed, and only then; and advanceEpoch
processes exactly the buffered messages whose epoch equals the (new)
current epoch, discards those with smaller epochs, and keeps the rest
buffered. -/
theorem epoch_gating (st : St) (m : Msg) :
    (st.hasState = false →
      handleGossipDelivery st m =
        ({ st with futureProposals := st.futureProposals ++ [m] }, []) ∧
      handleCascadeConsensusReception st m =
        ({ st with futureCC := st.futureCC ++ [m] }, [])) ∧
    (st.hasState = true → m.epoch > st.epoch →
      handleGossipDelivery st m =
        ({ st with futureProposals := st.futureProposals ++ [m] }, []) ∧
      handleCascadeConsensusReception st m =
        ({ st with futureCC := st.futureCC ++ [m] }, [])) ∧
    (st.hasState = true → m.epoch < st.epoch →
      handleGossipDelivery st m = (st, []) ∧
      handleCascadeConsensusReception st m = (st, [])) ∧
    (st.hasState = true → m.epoch = st.epoch →
      handleGossipDelivery st m = (st, [Event.procProposal m]) ∧
      handleCascadeConsensusReception st m = (st, [Event.procCC m])) ∧
    ((advanceEpoch st).1.futureProposals =
        st.futureProposals.filter (fun x => decide (st.epoch < x.epoch)) ∧
      (advanceEpoch st).1.futureCC =
        st.futureCC.filter (fun x => decide (st.epoch < x.epoch)) ∧
      (advanceEpoch st).2 =
        (st.futureProposals.filter (fun x => decide (x.epoch = st.epoch))).map
          Event.procProposal ++
        (st.futureCC.filter (fun x => decide (x.epoch = st.epoch))).map
          Event.procCC) := by
  refine ⟨?_, ?_, ?_, ?_, ?_⟩
  · intro h
    constructor <;> simp [handleGossipDelivery, handleCascadeConsensusReception, h]
  · intro h he
    have h2 : ¬ m.epoch < st.epoch := by omega
    constructor <;>
      simp [handleGossipDelivery, handleCascadeConsensusReception, h, h2, he]
  · intro h he
    constructor <;>
      simp [handleGossipDelivery, handleCascadeConsensusReception, h, he]
  · intro h he
    have h2 : ¬ m.epoch < st.epoch := by omega
    have h3 : ¬ m.epoch > st.epoch := by omega
    constructor <;>
      simp [handleGossipDelivery, handleCascadeConsensusReception, h, h2, h3, he]
  · refine ⟨?_, ?_, ?_⟩
    · simp [advanceEpoch, (sweep_spec st.epoch Event.procProposal st.futureProposals).1]
    · simp [advanceEpoch, (sweep_spec st.epoch Event.procCC st.futureCC).1]
    · simp [advanceEpoch, (sweep_spec st.epoch Event.procProposal st.futureProposals).2,
        (sweep_spec st.epoch Event.procCC st.futureCC).2]

/-- Concrete instantiation of C5 at a state holding one past, one current
and one future message in each buffer. -/
theorem epoch_gating_witness :
    handleGossipDelivery ⟨true, 4, [⟨3, 0⟩, ⟨4, 1⟩, ⟨5, 2⟩], []⟩ ⟨5, 9⟩ =
      (⟨true, 4, [⟨3, 0⟩, ⟨4, 1⟩, ⟨5, 2⟩, ⟨5, 9⟩], []⟩, []) ∧
    (advanceEpoch ⟨true, 4, [⟨3, 0⟩, ⟨4, 1⟩, ⟨5, 2⟩], [⟨4, 7⟩]⟩).1.futureProposals =
      [⟨5, 2⟩] ∧
    (advanceEpoch ⟨true, 4, [⟨3, 0⟩, ⟨4, 1⟩, ⟨5, 2⟩], [⟨4, 7⟩]⟩).2 =
      [Event.procProposal ⟨4, 1⟩, Event.procCC ⟨4, 7⟩] := by
  refine ⟨((epoch_gating ⟨true, 4, [⟨3, 0⟩, ⟨4, 1⟩, ⟨5, 2⟩], []⟩ ⟨5, 9⟩).2.1 rfl
    (by decide)).1, ?_, ?_⟩
  · rw [(epoch_gating ⟨true, 4, [⟨3, 0⟩, ⟨4, 1⟩, ⟨5, 2⟩], [⟨4, 7⟩]⟩ ⟨0, 0⟩).2.2.2.2.1]
    decide
  · rw [(epoch_gating ⟨true, 4, [⟨3, 0⟩, ⟨4, 1⟩, ⟨5, 2⟩], [⟨4, 7⟩]⟩ ⟨0, 0⟩).2.2.2.2.2.2]
    decide

end DMLS.Gate

namespace DMLS.FC

/-!
## C8 — FullConsensus::handleCommit

Embedding of the COMMIT collection of full_consensus.hpp. State is reduced
to the fields handleCommit reads and writes: the fault bound f (set by
newEpoch to (n-1)/3), the per-ref sets of commit signers and the value
store. MessageRefs, leaf indices and payloads are Nat. handleCommit
records the sender into m_signedCommit[ref] and delivers
m_messages[ref] (a std::map operator[] read, which default-constructs a
missing value) whenever the recorded set has at least 2f+1 members; there
is no has-delivered flag anywhere in the class.
-/

structure St where
  f : Nat
  signedCommit : Mmap (Finset Nat)
  messages : Mmap Nat
deriving DecidableEq

/-- FullConsensus::handleCommit. The returned list holds the payloads
passed to the deliver callback (the default payload of a missing ref is 0,
standing for a default-constructed T). -/
def handleCommit (st : St) (sender ref : Nat) : St × List Nat :=
  let newSet := insert sender ((mfind st.signedCommit ref).getD ∅)
  let st1 := { st with signedCommit := mupd st.signedCommit ref (fun _ => newSet) }
  if 2 * st.f + 1 ≤ newSet.card then
    ({ st1 with messages := mupd st1.messages ref (fun o => o.getD 0) },
      [mfindD st.messages ref 0])
  else (st1, [])

/-- C8: handleCommit delivers exactly when the recorded commit-signer set
for the ref reaches or stays at size at least 2f+1, and since no flag
records the delivery, a further COMMIT for the same ref (from any sender,
even a repeated one) delivers again. -/
theorem handleCommit_redelivers (st : St) (sender ref sender' : Nat)
    (hs : Msorted st.signedCommit) :
    ((handleCommit st sender ref).2 ≠ [] ↔
      2 * st.f + 1 ≤ (insert sender ((mfind st.signedCommit ref).getD ∅)).card) ∧
    (2 * st.f + 1 ≤ (insert sender ((mfind st.signedCommit ref).getD ∅)).card →
      (handleCommit st sender ref).2 = [mfindD st.messages ref 0] ∧
      (handleCommit (handleCommit st sender ref).1 sender' ref).2 ≠ []) := by
  constructor
  · unfold handleCommit
    by_cases h : 2 * st.f + 1 ≤ (insert sender ((mfind st.signedCommit ref).getD ∅)).card
    · simp [h]
    · simp [h]
  · intro h
    constructor
    · simp [handleCommit, h]
    · have hstate : (handleCommit st sender ref).1.signedCommit =
          mupd st.signedCommit ref
            (fun _ => insert sender ((mfind st.signedCommit ref).getD ∅)) := by
        simp [handleCommit, h]
      have hstatef : (handleCommit st sender ref).1.f = st.f := by
        simp [handleCommit, h]
      have hfind : mfind (handleCommit st sender ref).1.signedCommit ref =
          some (insert sender ((mfind st.signedCommit ref).getD ∅)) := by
        rw [hstate]
        exact mfind_mupd_self st.signedCommit ref _ hs
      have hsub : insert sender ((mfind st.signedCommit ref).getD ∅) ⊆
          insert sender'
            ((mfind (handleCommit st sender ref).1.signedCommit ref).getD ∅) := by
        rw [hfind]
        exact Finset.subset_insert _ _
      have hcard : 2 * (handleCommit st sender ref).1.f + 1 ≤
          (insert sender'
            ((mfind (handleCommit st sender ref).1.signedCommit ref).getD ∅)).card := by
        rw [hstatef]
        exact Nat.le_trans h (Finset.card_le_card hsub)
      set S1 := (handleCommit st sender ref).1 with hS1
      have h2 : (handleCommit S1 sender' ref).2 = [mfindD S1.messages ref 0] := by
        simp [handleCommit, hcard]
      simp [h2]

/-- Concrete instantiation of C8: with f = 1 and two prior signers, a third
COMMIT delivers, and so does a repeated COMMIT from the same sender. -/
theorem handleCommit_redelivers_witness :
    (handleCommit ⟨1, [(5, {1, 2})], [(5, 42)]⟩ 3 5).2 = [42] ∧
    (handleCommit (handleCommit ⟨1, [(5, {1, 2})], [(5, 42)]⟩ 3 5).1 3 5).2 ≠ [] := by
  have h := handleCommit_redelivers ⟨1, [(5, {1, 2})], [(5, 42)]⟩ 3 5 3 (by decide)
  have h2 := h.2 (by decide)
  exact ⟨by simpa [mfindD, mfind] using h2.1, h2.2⟩

end DMLS.FC

namespace DMLS.Gossip

/-!
## C9, C10 — the Murmur gossip broadcaster

Embedding of gossip_bcast.hpp. Identities and MLS messages are Nat; the
cipher-suite reference function (m_suite.ref) and the wire marshalling
(marshalToBytes) are injective black boxes of the environment, and the
random sampler (std::sample seeded from std::random_device) is an
environment function of the candidate set and the requested count.
m_received is a std::map from MessageRef to marshalled bytes (Mmap);
m_idsSample a std::set of identities (Finset); m_computedSample the vector
rebuilt from it by computeSample (and also appended to by a SUBSCRIBE).
-/

structure Env where
  gref : Nat → Nat
  enc : Nat → Nat
  selfId : Nat
  sampleFn : Finset Nat → Nat → Finset Nat

structure St where
  received : Mmap Nat
  idsSample : Finset Nat
  computedSample : List Nat
deriving DecidableEq

/-- A GossipBcastMessage: either a GOSSIP payload or a SUBSCRIBE. -/
inductive GMsg where
  | gossip (m : Nat)
  | subscribe (id : Nat)
deriving DecidableEq, Repr

/-- Network output and upward deliveries of one call. -/
structure Out where
  sends : List (Nat × Nat)
  sampleBcasts : List (List Nat × Nat)
  delivered : List Nat
deriving DecidableEq, Repr

def Out.none : Out := ⟨[], [], []⟩

/-- GossipBcast::dispatchMessage: record the marshalled bytes under the
payload reference (std::map::insert, which keeps an existing entry),
broadcast to the computed sample, deliver locally. -/
def dispatchMessage (env : Env) (st : St) (m : Nat) : St × Out :=
  let bytes := env.enc m
  let received :=
    if env.gref m ∈ mkeys st.received then st.received
    else mupd st.received (env.gref m) (fun _ => bytes)
  ({ st with received := received },
    ⟨[], [(st.computedSample, bytes)], [m]⟩)

/-- GossipBcast::receiveMessage. -/
def receiveMessage (env : Env) (st : St) : GMsg → St × Out
  | GMsg.gossip m =>
    if env.gref m ∈ mkeys st.received then (st, Out.none)
    else dispatchMessage env st m
  | GMsg.subscribe id =>
    if id ∈ st.idsSample then (st, Out.none)
    else
      ({ st with
          idsSample := insert id st.idsSample,
          computedSample := st.computedSample ++ [id] },
        ⟨st.received.map (fun p => (id, p.2)), [], []⟩)

/-- A sequence of receiveMessage calls within one epoch, collecting every
upward delivery. -/
def runTrace (env : Env) (st : St) : List GMsg → St × List Nat
  | [] => (st, [])
  | msg :: t =>
    let s1 := receiveMessage env st msg
    let s2 := runTrace env s1.1 t
    (s2.1, s1.2.delivered ++ s2.2)

theorem receive_keys_mono (env : Env) (st : St) (msg : GMsg) :
    ∀ r ∈ mkeys st.received, r ∈ mkeys (receiveMessage env st msg).1.received := by
  intro r hr
  cases msg with
  | gossip m =>
    by_cases h : env.gref m ∈ mkeys st.received
    · simpa [receiveMessage, h] using hr
    · simp only [receiveMessage, if_neg h, dispatchMessage]
      simpa [mem_mkeys_mupd, h] using Or.inr hr
  | subscribe id =>
    by_cases h : id ∈ st.idsSample <;> simpa [receiveMessage, h] using hr

theorem runTrace_no_redeliver (env : Env) (r : Nat) (trace : List GMsg) :
    ∀ (st : St), r ∈ mkeys st.received →
      ((runTrace env st trace).2.filter (fun x => env.gref x = r)).length = 0 := by
  induction trace with
  | nil => intro st _; simp [runTrace]
  | cons msg t ih =>
    intro st hr
    have hmono := receive_keys_mono env st msg r hr
    have hrest := ih (receiveMessage env st msg).1 hmono
    have hnow : ((receiveMessage env st msg).2.delivered.filter
        (fun x => env.gref x = r)).length = 0 := by
      cases msg with
      | gossip m =>
        by_cases h : env.gref m ∈ mkeys st.received
        · simp [receiveMessage, h, Out.none]
        · have hne : ¬ env.gref m = r := fun he => h (he ▸ hr)
          simp [receiveMessage, h, dispatchMessage, hne]
      | subscribe id =>
        by_cases h : id ∈ st.idsSample <;> simp [receiveMessage, h, Out.none]
    simp only [runTrace, List.filter_append, List.length_append]
    omega

/-- C9: a GOSSIP message whose payload reference is new is recorded,
forwarded once to the computed sample, and delivered upward exactly once; a
GOSSIP whose reference was already received changes nothing and delivers
nothing; consequently any sequence of receives within one epoch delivers a
given reference at most once. -/
theorem gossip_exactly_once (env : Env) (st : St) (m : Nat) :
    (env.gref m ∉ mkeys st.received →
      receiveMessage env st (GMsg.gossip m) =
        ({ st with received := mupd st.received (env.gref m) (fun _ => env.enc m) },
          ⟨[], [(st.computedSample, env.enc m)], [m]⟩)) ∧
    (env.gref m ∈ mkeys st.received →
      receiveMessage env st (GMsg.gossip m) = (st, Out.none)) ∧
    (∀ (trace : List GMsg) (r : Nat),
      ((runTrace env st trace).2.filter (fun x => env.gref x = r)).length ≤ 1) := by
  refine ⟨?_, ?_, ?_⟩
  · intro h
    simp [receiveMessage, h, dispatchMessage]
  · intro h
    simp [receiveMessage, h]
  · intro trace r
    induction trace generalizing st with
    | nil => simp [runTrace]
    | cons msg t ih =>
      simp only [runTrace, List.filter_append, List.length_append]
      cases msg with
      | gossip m0 =>
        by_cases h : env.gref m0 ∈ mkeys st.received
        · have h1 : ((receiveMessage env st (GMsg.gossip m0)).2.delivered.filter
              (fun x => env.gref x = r)).length = 0 := by
            simp [receiveMessage, h, Out.none]
          have h2 := ih (receiveMessage env st (GMsg.gossip m0)).1
          omega
        · by_cases he : env.gref m0 = r
          · have hd : (receiveMessage env st (GMsg.gossip m0)).2.delivered = [m0] := by
              simp [receiveMessage, h, dispatchMessage]
            have h1 : ((receiveMessage env st (GMsg.gossip m0)).2.delivered.filter
                (fun x => env.gref x = r)).length ≤ 1 := by
              rw [hd]
              exact le_trans (List.length_filter_le _ _) (by simp)
            have hkey : r ∈ mkeys (receiveMessage env st (GMsg.gossip m0)).1.received := by
              have hrec : (receiveMessage env st (GMsg.gossip m0)).1.received =
                  mupd st.received (env.gref m0) (fun _ => env.enc m0) := by
                simp [receiveMessage, h, dispatchMessage]
              rw [hrec, ← he]
              exact (mem_mkeys_mupd _ _ _ _).mpr (Or.inl rfl)
            have h2 := runTrace_no_redeliver env r t
              (receiveMessage env st (GMsg.gossip m0)).1 hkey
            omega
          · have h1 : ((receiveMessage env st (GMsg.gossip m0)).2.delivered.filter
                (fun x => env.gref x = r)).length = 0 := by
              simp [receiveMessage, h, dispatchMessage, he]
            have h2 := ih (receiveMessage env st (GMsg.gossip m0)).1
            omega
      | subscribe id =>
        have h1 : ((receiveMessage env st (GMsg.subscribe id)).2.delivered.filter
            (fun x => env.gref x = r)).length = 0 := by
          by_cases h : id ∈ st.idsSample <;> simp [receiveMessage, h, Out.none]
        have h2 := ih (receiveMessage env st (GMsg.subscribe id)).1
        omega

/-- Concrete instantiation of C9: a fresh payload is delivered and
forwarded; its replay is a no-op; a two-message trace delivers ref 7 once. -/
theorem gossip_exactly_once_witness :
    receiveMessage ⟨Nat.succ, Nat.succ, 0, fun _ _ => ∅⟩ ⟨[], ∅, [3]⟩ (GMsg.gossip 6) =
      (⟨[(7, 7)], ∅, [3]⟩, ⟨[], [([3], 7)], [6]⟩) ∧
    ((runTrace ⟨Nat.succ, Nat.succ, 0, fun _ _ => ∅⟩ ⟨[], ∅, [3]⟩
      [GMsg.gossip 6, GMsg.gossip 6]).2.filter (fun x => Nat.succ x = 7)).length ≤ 1 := by
  constructor
  · have h := (gossip_exactly_once ⟨Nat.succ, Nat.succ, 0, fun _ _ => ∅⟩
      ⟨[], ∅, [3]⟩ 6).1 (by simp [mkeys])
    rw [h]
    decide
  · exact (gossip_exactly_once ⟨Nat.succ, Nat.succ, 0, fun _ _ => ∅⟩
      ⟨[], ∅, [3]⟩ 6).2.2 [GMsg.gossip 6, GMsg.gossip 6] 7


/-!
### C10 — GossipBcast::newEpoch and updateSample

newEpoch clears m_received, erases the removed identities from the sample
set, then refills through updateSample: when the sample is smaller than
both max(log10(|members|), MINIMUM_PEERS = 6) and the membership, it draws
min(|members minus sample|, wanted) fresh identities at random from the
members not already sampled, sends SUBSCRIBE(selfId) to each (in the sorted
order of the sampled std::set) and inserts them; computeSample then rebuilds
the vector when anything changed. std::log10 cast through max to int is
the floor logarithm, Nat.log 10, for a non-empty membership.
-/

def MINIMUM_PEERS : Nat := 6

/-- The refill target max(log10(|members|), MINIMUM_PEERS). -/
def expectedMin (memberCount : Nat) : Nat :=
  max (Nat.log 10 memberCount) MINIMUM_PEERS

/-- GossipBcast::updateSample. Returns the new state, the identities that
were sent a SUBSCRIBE (in iteration order of the sampled set), and whether
the sample changed. -/
def updateSample (env : Env) (st : St) (members : Finset Nat) :
    St × List Nat × Bool :=
  if st.idsSample.card < expectedMin members.card ∧
      st.idsSample.card < members.card then
    let diff := members \ st.idsSample
    let sampled := env.sampleFn diff
      (min diff.card (expectedMin members.card - st.idsSample.card))
    ({ st with idsSample := st.idsSample ∪ sampled },
      (sampled.sort (· ≤ ·), true))
  else (st, ([], false))

/-- GossipBcast::newEpoch. -/
def newEpoch (env : Env) (st : St) (members : Finset Nat) (removed : List Nat) :
    St × List Nat :=
  let updated := removed.any (fun id => decide (id ∈ st.idsSample))
  let st1 : St := { st with
    received := [],
    idsSample := st.idsSample \ removed.toFinset }
  let r := updateSample env st1 members
  let st3 := if r.2.2 || updated then
      { r.1 with computedSample := r.1.idsSample.sort (· ≤ ·) }
    else r.1
  (st3, r.2.1)

/-- What updateSample guarantees for any state: it leaves m_received
alone, only ever adds identities, adds them only from the membership
outside the current sample, reaches at least
min(max(log10 |members|, 6), |members|) identities, and sends one
SUBSCRIBE to exactly each newly sampled identity. -/
theorem updateSample_spec (env : Env) (st : St) (members : Finset Nat)
    (hsub : ∀ s c, env.sampleFn s c ⊆ s)
    (hcard : ∀ s c, (env.sampleFn s c).card = min s.card c) :
    (updateSample env st members).1.received = st.received ∧
    st.idsSample ⊆ (updateSample env st members).1.idsSample ∧
    (updateSample env st members).1.idsSample \ st.idsSample ⊆ members ∧
    min (expectedMin members.card) members.card ≤
      (updateSample env st members).1.idsSample.card ∧
    (updateSample env st members).2.1.toFinset =
      (updateSample env st members).1.idsSample \ st.idsSample ∧
    (updateSample env st members).2.1.Nodup := by
  by_cases hg : st.idsSample.card < expectedMin members.card ∧
      st.idsSample.card < members.card
  · have hres : updateSample env st members =
        (⟨st.received,
          st.idsSample ∪
            env.sampleFn (members \ st.idsSample)
              (min (members \ st.idsSample).card
                (expectedMin members.card - st.idsSample.card)),
          st.computedSample⟩,
          ((env.sampleFn (members \ st.idsSample)
              (min (members \ st.idsSample).card
                (expectedMin members.card - st.idsSample.card))).sort (· ≤ ·),
            true)) := by
      simp [updateSample, hg]
    have hsampsub : env.sampleFn (members \ st.idsSample)
        (min (members \ st.idsSample).card
          (expectedMin members.card - st.idsSample.card)) ⊆
        members \ st.idsSample := hsub _ _
    have hdisj : Disjoint st.idsSample
        (env.sampleFn (members \ st.idsSample)
          (min (members \ st.idsSample).card
            (expectedMin members.card - st.idsSample.card))) := by
      refine Finset.disjoint_left.mpr ?_
      intro a ha hb
      exact (Finset.mem_sdiff.mp (hsampsub hb)).2 ha
    rw [hres]
    refine ⟨rfl, Finset.subset_union_left, ?_, ?_, ?_, Finset.sort_nodup _ _⟩
    · intro a ha
      rcases Finset.mem_sdiff.mp ha with ⟨ha1, ha2⟩
      rcases Finset.mem_union.mp ha1 with h | h
      · exact absurd h ha2
      · exact (Finset.mem_sdiff.mp (hsampsub h)).1
    · have hcu := Finset.card_union_of_disjoint hdisj
      have hcs := hcard (members \ st.idsSample)
        (min (members \ st.idsSample).card
          (expectedMin members.card - st.idsSample.card))
      have hds : members.card - st.idsSample.card ≤ (members \ st.idsSample).card :=
        Finset.le_card_sdiff st.idsSample members
      simp only [hcu, hcs]
      omega
    · rw [Finset.sort_toFinset]
      rw [Finset.union_sdiff_cancel_left hdisj]
  · have hres : updateSample env st members = (st, ([], false)) := by
      simp only [updateSample, if_neg hg]
    rw [hres]
    refine ⟨rfl, Finset.Subset.refl _, ?_, ?_, ?_, List.nodup_nil⟩
    · simp
    · show min (expectedMin members.card) members.card ≤ st.idsSample.card
      push_neg at hg
      rcases Nat.lt_or_ge st.idsSample.card (expectedMin members.card) with h1 | h1
      · have := hg h1
        omega
      · omega
    · simp

/-- The state handed to updateSample by newEpoch: R cleared and the
removed identities erased. -/
def erasedSt (st : St) (removed : List Nat) : St :=
  ⟨[], st.idsSample \ removed.toFinset, st.computedSample⟩

/-- newEpoch only recomputes m_computedSample beyond what updateSample did
to the erased state, and forwards the SUBSCRIBE targets. -/
theorem newEpoch_proj (env : Env) (st : St) (members : Finset Nat)
    (removed : List Nat) :
    (newEpoch env st members removed).1.received =
      (updateSample env (erasedSt st removed) members).1.received ∧
    (newEpoch env st members removed).1.idsSample =
      (updateSample env (erasedSt st removed) members).1.idsSample ∧
    (newEpoch env st members removed).2 =
      (updateSample env (erasedSt st removed) members).2.1 := by
  have hst1 : ({ st with
      received := ([] : Mmap Nat),
      idsSample := st.idsSample \ removed.toFinset } : St) =
      erasedSt st removed := rfl
  unfold newEpoch
  rw [hst1]
  by_cases hb : ((updateSample env (erasedSt st removed) members).2.2 ||
      removed.any (fun id => decide (id ∈ st.idsSample))) <;> simp [hb]

/-- C10 (amended): newEpoch clears R and drops the removed identities for
good (provided they left the membership, as they have when newEpoch runs on
the post-commit state); the refilled sample reaches at least
min(max(log10 |members|, 6), |members|) identities — the target is capped
by the membership, not always attained as the claim states; new identities
come only from members outside the prior (erased) sample; and exactly the
newly sampled identities are each sent one SUBSCRIBE. -/
theorem newEpoch_refill (env : Env) (st : St) (members : Finset Nat)
    (removed : List Nat)
    (hsub : ∀ s c, env.sampleFn s c ⊆ s)
    (hcard : ∀ s c, (env.sampleFn s c).card = min s.card c) :
    (newEpoch env st members removed).1.received = [] ∧
    (∀ r ∈ removed, r ∉ members →
      r ∉ (newEpoch env st members removed).1.idsSample) ∧
    min (expectedMin members.card) members.card ≤
      (newEpoch env st members removed).1.idsSample.card ∧
    (newEpoch env st members removed).1.idsSample ⊆
      (st.idsSample \ removed.toFinset) ∪ members ∧
    (newEpoch env st members removed).2.toFinset =
      (newEpoch env st members removed).1.idsSample \
        (st.idsSample \ removed.toFinset) ∧
    (newEpoch env st members removed).2.Nodup := by
  obtain ⟨hrec, hids, hsubs⟩ := newEpoch_proj env st members removed
  obtain ⟨urec, umono, unew, ucard, usubs, unodup⟩ :=
    updateSample_spec env (erasedSt st removed) members hsub hcard
  have hS1 : (erasedSt st removed).idsSample = st.idsSample \ removed.toFinset := rfl
  refine ⟨?_, ?_, ?_, ?_, ?_, ?_⟩
  · rw [hrec, urec]
    rfl
  · intro r hr hrm
    rw [hids]
    intro hmem
    by_cases hS : r ∈ (erasedSt st removed).idsSample
    · rw [hS1] at hS
      exact (Finset.mem_sdiff.mp hS).2 (List.mem_toFinset.mpr hr)
    · exact hrm (unew (Finset.mem_sdiff.mpr ⟨hmem, hS⟩))
  · rw [hids]
    exact ucard
  · rw [hids, ← hS1]
    intro a ha
    by_cases hS : a ∈ (erasedSt st removed).idsSample
    · exact Finset.mem_union_left _ hS
    · exact Finset.mem_union_right _ (unew (Finset.mem_sdiff.mpr ⟨ha, hS⟩))
  · rw [hsubs, hids, ← hS1]
    exact usubs
  · rw [hsubs]
    exact unodup

/-- The deterministic stand-in for std::sample used by the concrete
instances: take the first c elements of the sorted candidate list. -/
def takeSampler (s : Finset Nat) (c : Nat) : Finset Nat :=
  ((s.sort (· ≤ ·)).take c).toFinset

theorem takeSampler_sub (s : Finset Nat) (c : Nat) : takeSampler s c ⊆ s := by
  intro a ha
  have h1 := List.mem_toFinset.mp ha
  have h2 := (List.take_sublist c (s.sort (· ≤ ·))).subset h1
  exact (Finset.mem_sort (α := Nat) (· ≤ ·)).mp h2

theorem takeSampler_card (s : Finset Nat) (c : Nat) :
    (takeSampler s c).card = min s.card c := by
  unfold takeSampler
  have hnd : ((s.sort (· ≤ ·)).take c).Nodup :=
    (Finset.sort_nodup _ _).sublist (List.take_sublist c _)
  rw [List.toFinset_card_of_nodup hnd, List.length_take, Finset.length_sort]
  exact Nat.min_comm c s.card

/-- Concrete instantiation of the amended C10 at a seven-member group. -/
theorem newEpoch_refill_witness :
    (newEpoch ⟨Nat.succ, Nat.succ, 0, takeSampler⟩ ⟨[(3, 3)], {1, 9}, [1, 9]⟩
        {0, 1, 2, 3, 4, 5, 6} [9]).1.received = [] ∧
    min (expectedMin ({0, 1, 2, 3, 4, 5, 6} : Finset Nat).card)
        ({0, 1, 2, 3, 4, 5, 6} : Finset Nat).card ≤
      (newEpoch ⟨Nat.succ, Nat.succ, 0, takeSampler⟩ ⟨[(3, 3)], {1, 9}, [1, 9]⟩
        {0, 1, 2, 3, 4, 5, 6} [9]).1.idsSample.card := by
  have h := newEpoch_refill ⟨Nat.succ, Nat.succ, 0, takeSampler⟩
    ⟨[(3, 3)], {1, 9}, [1, 9]⟩ {0, 1, 2, 3, 4, 5, 6} [9]
    takeSampler_sub takeSampler_card
  exact ⟨h.1, h.2.2.1⟩

/-- Refutation of C10 as stated: in a two-member group an empty sample is
refilled to only 2 identities, short of the claimed lower bound
max(log10 2, 6) = 6. The sampler stand-in here returns the whole candidate
set, which is what std::sample does when asked for at least as many
elements as there are candidates. -/
theorem newEpoch_refill_counterexample :
    (newEpoch ⟨Nat.succ, Nat.succ, 0, fun s _ => s⟩ ⟨[], ∅, []⟩
        {0, 1} []).1.idsSample.card = 2 ∧
    ¬ expectedMin ({0, 1} : Finset Nat).card ≤
      (newEpoch ⟨Nat.succ, Nat.succ, 0, fun s _ => s⟩ ⟨[], ∅, []⟩
        {0, 1} []).1.idsSample.card := by
  have hlog : Nat.log 10 2 = 0 := by
    apply Nat.log_eq_zero_iff.mpr
    left
    norm_num
  have hem : expectedMin ({0, 1} : Finset Nat).card = 6 := by
    rw [show ({0, 1} : Finset Nat).card = 2 from rfl]
    simp [expectedMin, hlog, MINIMUM_PEERS]
  have hguard : (∅ : Finset Nat).card < expectedMin ({0, 1} : Finset Nat).card ∧
      (∅ : Finset Nat).card < ({0, 1} : Finset Nat).card := by
    rw [hem]
    constructor
    · simp
    · simp
  have hids : (newEpoch ⟨Nat.succ, Nat.succ, 0, fun s _ => s⟩ ⟨[], ∅, []⟩
      {0, 1} []).1.idsSample = ({0, 1} : Finset Nat) := by
    obtain ⟨_, hids, _⟩ := newEpoch_proj ⟨Nat.succ, Nat.succ, 0, fun s _ => s⟩
      ⟨[], ∅, []⟩ {0, 1} []
    rw [hids]
    have he : erasedSt ⟨[], ∅, []⟩ [] = ⟨[], ∅, []⟩ := by
      simp [erasedSt]
    rw [he]
    have h02 : 0 < expectedMin 2 := by
      have h6 : expectedMin 2 = 6 := by simp [expectedMin, hlog, MINIMUM_PEERS]
      omega
    simp [updateSample, h02]
  rw [hids, hem]
  constructor
  · rfl
  · norm_num

end DMLS.Gossip

namespace DMLS.Wire

/-!
## The TLS presentation-language decoders (mlspp tls_syntax)

cac_signature.hpp and restrained_consensus.hpp decode application bytes
with mls::tls::unmarshal. mlspp implements the RFC 9420 TLS syntax: fixed
integers big-endian, byte strings and vectors length-prefixed by a
variable-size integer whose two top bits give its width (1, 2 or 4 bytes,
minimal encoding enforced), vector lengths counted in bytes. unmarshal
reads from the front of the buffer, ignores trailing bytes, and throws on
a truncated or malformed buffer: the decoders below return none exactly
where the library throws. Bytes are Nat values below 256.
-/

/-- RFC 9420 variable-size integer. -/
def decodeVarint : List Nat → Option (Nat × List Nat)
  | [] => none
  | b :: rest =>
    if b < 64 then some (b, rest)
    else if b < 128 then
      match rest with
      | [] => none
      | b2 :: r2 =>
        let v := (b - 64) * 256 + b2
        if v < 64 then none else some (v, r2)
    else if b < 192 then
      match rest with
      | b2 :: b3 :: b4 :: r4 =>
        let v := (b - 128) * 16777216 + b2 * 65536 + b3 * 256 + b4
        if v < 16384 then none else some (v, r4)
      | _ => none
    else none

/-- Big-endian uint32. -/
def decodeU32 : List Nat → Option (Nat × List Nat)
  | b1 :: b2 :: b3 :: b4 :: r =>
    some (b1 * 16777216 + b2 * 65536 + b3 * 256 + b4, r)
  | _ => none

/-- A single byte (uint8). -/
def decodeU8 : List Nat → Option (Nat × List Nat)
  | b :: r => some (b, r)
  | [] => none

/-- A length-prefixed byte string (the encoding of bytes and of the
MessageRef hash). -/
def decodeBytes (bs : List Nat) : Option (List Nat × List Nat) :=
  match decodeVarint bs with
  | none => none
  | some (len, rest) =>
    if len ≤ rest.length then some (rest.take len, rest.drop len) else none

/-- CACSignatureData of cac_signature.hpp:
TLS_SERIALIZABLE(sequence, witnessOrReady, messageReference). -/
structure CACSigData where
  sequence : Nat
  kindCode : Nat
  messageReference : List Nat
deriving DecidableEq, Repr

/-- mls::tls::unmarshal of CACSignatureData. -/
def decodeCACSigData (bs : List Nat) : Option CACSigData :=
  match decodeU32 bs with
  | none => none
  | some (seq, r1) =>
    match decodeU8 r1 with
    | none => none
    | some (kind, r2) =>
      match decodeBytes r2 with
      | none => none
      | some (ref, _) => some ⟨seq, kind, ref⟩

/-- The packed elements of a vector of (LeafIndex, MessageRef) pairs:
LeafIndex is a uint32, MessageRef a length-prefixed byte string, pairs
written first-then-second by the custom pair serializer of
dds_message.hpp. The fuel is the element count bound (each element takes
at least one byte). -/
def decodePairsFuel : Nat → List Nat → Option (List (Nat × List Nat))
  | _, [] => some []
  | 0, _ :: _ => none
  | fuel + 1, bs =>
    match decodeU32 bs with
    | none => none
    | some (leaf, r1) =>
      match decodeBytes r1 with
      | none => none
      | some (ref, r2) =>
        match decodePairsFuel fuel r2 with
        | none => none
        | some t => some ((leaf, ref) :: t)

/-- mls::tls::unmarshal of a vector<pair<LeafIndex, MessageRef>>: a varint
byte length followed by exactly that many bytes of packed pairs. -/
def decodePairList (bs : List Nat) : Option (List (Nat × List Nat)) :=
  match decodeVarint bs with
  | none => none
  | some (len, rest) =>
    if len ≤ rest.length then decodePairsFuel len (rest.take len) else none

end DMLS.Wire

namespace DMLS.Sig

open DMLS.Wire

/-!
## C6 — CACSignature::verifyAndConvert (cac_signature.hpp)

An mls::AuthenticatedContent is reduced to the five observations
verifyAndConvert makes of it: epoch, sender type, the member leaf index
(meaningful for a member sender), content type, and the application data
bytes. Signature verification is the opaque MLS check.
-/

inductive SenderType where
  | member
  | external
  | newMemberProposal
  | newMemberCommit
deriving DecidableEq, Repr

inductive ContentType where
  | application
  | proposal
  | commit
deriving DecidableEq, Repr

structure AuthContent where
  epoch : Nat
  senderType : SenderType
  senderIndex : Nat
  contentType : ContentType
  appData : List Nat
deriving DecidableEq, Repr

/-- Modelled from the spec: the ExtendedMLSState facade of §4.A
(extended_mls_state.hpp is not among the sources under verification). The
two observations verifyAndConvert makes of it are the current epoch and
the signature check verify(ac) → bool, an oracle of the MLS black box. -/
structure MLSView where
  epoch : Nat
  verifyOk : AuthContent → Bool

def WITNESS_CODE : Nat := 1
def READY_CODE : Nat := 2

structure CACSignature where
  sequence : Nat
  witnessOrReady : Bool
  referencedMessage : List Nat
  authContent : AuthContent
deriving DecidableEq, Repr

def CACSignature.sender (s : CACSignature) : Nat := s.authContent.senderIndex

/-- CACSignature::verifyAndConvert. Except.error stands for the
tls::unmarshal exception, which the function does not catch; Except.ok
none is the empty optional it returns on a failed check. -/
def verifyAndConvert (v : MLSView) (ac : AuthContent) :
    Except Unit (Option CACSignature) :=
  if ¬ (v.verifyOk ac = true) ∨ ac.epoch ≠ v.epoch ∨
      ac.senderType ≠ SenderType.member ∨
      ac.contentType ≠ ContentType.application then
    Except.ok none
  else
    match decodeCACSigData ac.appData with
    | none => Except.error ()
    | some d =>
      if d.kindCode ≠ WITNESS_CODE ∧ d.kindCode ≠ READY_CODE then Except.ok none
      else Except.ok (some ⟨d.sequence, decide (d.kindCode = WITNESS_CODE),
        d.messageReference, ac⟩)

/-- The validity condition of the claim, written from the specification
text: authenticated under the current epoch by a member, application
content, well-formed body with a recognised kind. -/
def specValid (v : MLSView) (ac : AuthContent) : Prop :=
  v.verifyOk ac = true ∧ ac.epoch = v.epoch ∧
  ac.senderType = SenderType.member ∧
  ac.contentType = ContentType.application ∧
  ∃ d, decodeCACSigData ac.appData = some d ∧
    (d.kindCode = WITNESS_CODE ∨ d.kindCode = READY_CODE)

/-- C6 (amended): verifyAndConvert returns a CACSignature exactly when the
content verifies under the current epoch from a member, is application
content, and its body decodes with a recognised kind; when that fails it
returns nothing — except that a body that does not decode at all makes the
uncaught tls::unmarshal exception propagate instead of producing the empty
optional. -/
theorem verifyAndConvert_characterization (v : MLSView) (ac : AuthContent) :
    ((∃ s, verifyAndConvert v ac = Except.ok (some s)) ↔ specValid v ac) ∧
    (¬ specValid v ac →
      verifyAndConvert v ac = Except.ok none ∨
      (verifyAndConvert v ac = Except.error () ∧
        v.verifyOk ac = true ∧ ac.epoch = v.epoch ∧
        ac.senderType = SenderType.member ∧
        ac.contentType = ContentType.application ∧
        decodeCACSigData ac.appData = none)) := by
  by_cases hchk : ¬ (v.verifyOk ac = true) ∨ ac.epoch ≠ v.epoch ∨
      ac.senderType ≠ SenderType.member ∨
      ac.contentType ≠ ContentType.application
  · have hres : verifyAndConvert v ac = Except.ok none := by
      unfold verifyAndConvert
      rw [if_pos hchk]
    refine ⟨⟨?_, ?_⟩, fun _ => Or.inl hres⟩
    · rintro ⟨s, hs⟩
      rw [hres] at hs
      exact absurd (Except.ok.inj hs) (by simp)
    · rintro ⟨ha, hb, hc, hd, _⟩
      rcases hchk with h | h | h | h
      · exact (h ha).elim
      · exact (h hb).elim
      · exact (h hc).elim
      · exact (h hd).elim
  · have hneg := hchk
    push_neg at hchk
    obtain ⟨h1, h2, h3, h4⟩ := hchk
    have hunfold : verifyAndConvert v ac =
        match decodeCACSigData ac.appData with
        | none => Except.error ()
        | some d =>
          if d.kindCode ≠ WITNESS_CODE ∧ d.kindCode ≠ READY_CODE then
            Except.ok none
          else Except.ok (some ⟨d.sequence, decide (d.kindCode = WITNESS_CODE),
            d.messageReference, ac⟩) := by
      unfold verifyAndConvert
      rw [if_neg hneg]
    rcases hdec : decodeCACSigData ac.appData with _ | d
    · have hres : verifyAndConvert v ac = Except.error () := by
        rw [hunfold, hdec]
      refine ⟨⟨?_, ?_⟩, fun _ => Or.inr ⟨hres, h1, h2, h3, h4, rfl⟩⟩
      · rintro ⟨s, hs⟩
        rw [hres] at hs
        exact Except.noConfusion hs
      · rintro ⟨_, _, _, _, d2, hd2, _⟩
        rw [hdec] at hd2
        exact Option.noConfusion hd2
    · by_cases hkind : d.kindCode ≠ WITNESS_CODE ∧ d.kindCode ≠ READY_CODE
      · have hres : verifyAndConvert v ac = Except.ok none := by
          rw [hunfold, hdec]
          show (if d.kindCode ≠ WITNESS_CODE ∧ d.kindCode ≠ READY_CODE then
              Except.ok none
            else Except.ok (some (CACSignature.mk d.sequence
              (decide (d.kindCode = WITNESS_CODE)) d.messageReference ac))) =
            Except.ok none
          rw [if_pos hkind]
        refine ⟨⟨?_, ?_⟩, fun _ => Or.inl hres⟩
        · rintro ⟨s, hs⟩
          rw [hres] at hs
          exact absurd (Except.ok.inj hs) (by simp)
        · rintro ⟨_, _, _, _, d2, hd2, hk2⟩
          rw [hdec] at hd2
          have hd3 : d = d2 := Option.some.inj hd2
          rcases hk2 with hk | hk
          · exact (hkind.1 (by rw [hd3]; exact hk)).elim
          · exact (hkind.2 (by rw [hd3]; exact hk)).elim
      · have hval : specValid v ac := by
          refine ⟨h1, h2, h3, h4, d, hdec, ?_⟩
          by_cases hw : d.kindCode = WITNESS_CODE
          · exact Or.inl hw
          · push_neg at hkind
            exact Or.inr (hkind hw)
        have hres : verifyAndConvert v ac =
            Except.ok (some ⟨d.sequence, decide (d.kindCode = WITNESS_CODE),
              d.messageReference, ac⟩) := by
          rw [hunfold, hdec]
          show (if d.kindCode ≠ WITNESS_CODE ∧ d.kindCode ≠ READY_CODE then
              Except.ok none
            else Except.ok (some (CACSignature.mk d.sequence
              (decide (d.kindCode = WITNESS_CODE)) d.messageReference ac))) =
            Except.ok (some (CACSignature.mk d.sequence
              (decide (d.kindCode = WITNESS_CODE)) d.messageReference ac))
          rw [if_neg hkind]
        exact ⟨⟨fun _ => hval, fun _ => ⟨_, hres⟩⟩, fun hns => absurd hval hns⟩

/-- Concrete instantiation of the amended C6: a correctly encoded WITNESS
body (sequence 1, kind 1, two-byte reference) converts under a verifying
state; under a state that rejects the signature the empty optional comes
back. -/
theorem verifyAndConvert_characterization_witness :
    (∃ s, verifyAndConvert ⟨7, fun _ => true⟩
        ⟨7, SenderType.member, 2, ContentType.application,
          [0, 0, 0, 1, 1, 2, 9, 9]⟩ = Except.ok (some s)) ∧
    verifyAndConvert ⟨7, fun _ => false⟩
        ⟨7, SenderType.member, 2, ContentType.application,
          [0, 0, 0, 1, 1, 2, 9, 9]⟩ = Except.ok none := by
  constructor
  · exact (verifyAndConvert_characterization ⟨7, fun _ => true⟩
      ⟨7, SenderType.member, 2, ContentType.application,
        [0, 0, 0, 1, 1, 2, 9, 9]⟩).1.mpr
      ⟨rfl, rfl, rfl, rfl, ⟨1, 1, [9, 9]⟩, by decide, Or.inl rfl⟩
  · have hnv : ¬ specValid ⟨7, fun _ => false⟩
        ⟨7, SenderType.member, 2, ContentType.application,
          [0, 0, 0, 1, 1, 2, 9, 9]⟩ := by
      rintro ⟨h, _⟩
      exact Bool.noConfusion h
    rcases (verifyAndConvert_characterization ⟨7, fun _ => false⟩
      ⟨7, SenderType.member, 2, ContentType.application,
        [0, 0, 0, 1, 1, 2, 9, 9]⟩).2 hnv with h | h
    · exact h
    · exact absurd h.2.1 (by decide)

/-- Refutation of C6 as stated: an authenticated member application
content of the current epoch whose body is empty makes verifyAndConvert
throw out of tls::unmarshal; it neither returns a signature nor returns
nothing. -/
theorem verifyAndConvert_counterexample :
    verifyAndConvert ⟨0, fun _ => true⟩
        ⟨0, SenderType.member, 3, ContentType.application, []⟩ =
      Except.error () ∧
    verifyAndConvert ⟨0, fun _ => true⟩
        ⟨0, SenderType.member, 3, ContentType.application, []⟩ ≠
      Except.ok none := by
  refine ⟨rfl, fun h => ?_⟩
  exact Except.noConfusion h

end DMLS.Sig

namespace DMLS.RC

open DMLS.Wire DMLS.Sig

/-!
## C3 — RestrainedConsensus::handleRestrainedCons

Embedding of restrained_consensus.hpp. A conflict-set element is a
(LeafIndex, MessageRef) pair; m_signed maps the signed subset — a
std::set of pairs, modelled as a Finset — to the per-sender signature map.
The insertion-ordered association lists used here carry the same contents
as the sorted std::maps of the source; no code path observes their
iteration order. Timers are out of scope (resetTimeout only touches the
network timer wheel). Events record the calls into the bottom, decide and
broadcast callbacks.
-/

abbrev Pair := Nat × List Nat

abbrev Subset := List Pair

structure RCState where
  hasDelivered : Bool
  retract : Bool
  hasFinished : Bool
  powerSet : List Subset
  signedMap : List (Finset Pair × List (Nat × AuthContent))
  retracted : List AuthContent
deriving DecidableEq

inductive RCEvent where
  | bottomCalled
  | decided (refs : List (List Nat))
  | sentRetract
deriving DecidableEq, Repr

/-- Association-list assignment m[k] = f(m[k]), inserting when absent. -/
def supd {κ ν : Type} [DecidableEq κ] : List (κ × ν) → κ → (Option ν → ν) →
    List (κ × ν)
  | [], k, f => [(k, f none)]
  | (k0, v) :: t, k, f =>
    if k = k0 then (k0, f (some v)) :: t else (k0, v) :: supd t k f

/-- Association-list lookup. -/
def sfind {κ ν : Type} [DecidableEq κ] : List (κ × ν) → κ → Option ν
  | [], _ => none
  | (k0, v) :: t, k => if k = k0 then some v else sfind t k

/-- RestrainedConsensus::bottom. -/
def bottom (st : RCState) : RCState × List RCEvent :=
  if st.hasFinished then (st, [])
  else ({ st with hasFinished := true }, [RCEvent.bottomCalled])

/-- The proofs loop of handleRestrainedCons: convert every CAC proof,
aborting on the first invalid one (ok none, which bottoms the caller) and
propagating the tls::unmarshal exception of a malformed body. -/
def convertProofs (v : MLSView) : List AuthContent →
    Except Unit (Option (List CACSignature))
  | [] => Except.ok (some [])
  | sig :: t =>
    match verifyAndConvert v sig with
    | Except.error e => Except.error e
    | Except.ok none => Except.ok none
    | Except.ok (some s) =>
      match convertProofs v t with
      | Except.error e => Except.error e
      | Except.ok none => Except.ok none
      | Except.ok (some l) => Except.ok (some (s :: l))

/-- The per-sender contiguity test of handleRestrainedCons: for every
sender, the greatest of its distinct proof sequence numbers must not
exceed their count minus one. -/
def sequencesOk (proofs : List CACSignature) : Bool :=
  ((proofs.map (fun s => s.sender)).dedup).all (fun snd =>
    let seqs := ((proofs.filter (fun s => s.sender = snd)).map
      (fun s => s.sequence)).dedup
    seqs.all (fun q => q ≤ seqs.length - 1))

/-- The sigSet loop of handleRestrainedCons: verify each signature, check
its sender type, re-check the sender of sigSet[0] (the source re-reads
content.sigSet[0] here rather than the loop variable, so the third
disjunct never fires), and decode the signed subset; none stands for the
bottom the caller performs. -/
def checkSigSet (v : MLSView) (sender : Nat) (sig0 : AuthContent) :
    List AuthContent → Option (List (Finset Pair × AuthContent))
  | [] => some []
  | sig :: t =>
    if ¬ (v.verifyOk sig = true) ∨ sig.senderType ≠ SenderType.member ∨
        sig0.senderIndex ≠ sender then none
    else
      match decodePairList sig.appData with
      | none => none
      | some pairs =>
        match checkSigSet v sender sig0 t with
        | none => none
        | some rest => some ((pairs.toFinset, sig) :: rest)

/-- RestrainedConsensus::checkCompletion. -/
def checkCompletion (st : RCState) : RCState × List RCEvent :=
  match st.powerSet with
  | [] => (st, [])
  | b0 :: rest =>
    let bu := rest.foldl (fun (bu : Subset × Bool) elt =>
        if elt.length > bu.1.length then (elt, true)
        else if elt.length = bu.1.length then (bu.1, false)
        else bu) (b0, true)
    if ¬ bu.2 then bottom st
    else
      let key := bu.1.toFinset
      let sm := supd st.signedMap key (fun o => o.getD [])
      let biggestSigs := (sfind sm key).getD []
      if biggestSigs.length = bu.1.length then
        ({ st with signedMap := sm, hasFinished := true },
          [RCEvent.decided (bu.1.map Prod.snd)])
      else ({ st with signedMap := sm }, [])

structure RestrainedConsContent where
  sigSet : List AuthContent
  powerConflictSet : List Subset
  proofs : List AuthContent
deriving DecidableEq

/-- RestrainedConsensus::handleRestrainedCons. -/
def handleRestrainedCons (v : MLSView) (st : RCState)
    (content : RestrainedConsContent) : Except Unit (RCState × List RCEvent) :=
  match convertProofs v content.proofs with
  | Except.error e => Except.error e
  | Except.ok none => Except.ok (bottom st)
  | Except.ok (some proofs) =>
    if ¬ sequencesOk proofs then Except.ok (bottom st)
    else
      match content.sigSet with
      | [] => Except.ok (bottom st)
      | sig0 :: _ =>
        if sig0.senderType ≠ SenderType.member then Except.ok (bottom st)
        else
          match checkSigSet v sig0.senderIndex sig0 content.sigSet with
          | none => Except.ok (bottom st)
          | some checked =>
            let signedSet := checked.foldl
              (fun m p => supd m p.1 (fun _ => p.2)) []
            if st.hasDelivered then
              let sm := signedSet.foldl (fun m p =>
                supd m p.1 (fun o =>
                  supd (o.getD []) sig0.senderIndex (fun _ => p.2))) st.signedMap
              Except.ok (checkCompletion { st with signedMap := sm })
            else
              Except.ok ({ st with retract := true }, [RCEvent.sentRetract])

/-- A sigSet entry from leaf 0 signing the empty subset. -/
def exSig0 : AuthContent :=
  ⟨0, SenderType.member, 0, ContentType.application, [0]⟩

/-- A sigSet entry from leaf 1 — a different sender — signing the subset
with the single pair (leaf 1, ref 0x07). -/
def exSig1 : AuthContent :=
  ⟨0, SenderType.member, 1, ContentType.application, [6, 0, 0, 0, 1, 1, 7]⟩

/-- C3 is right about the code only in part: on the input below, whose two
sigSet entries verify, parse, and come from two different member leaf
indices (0 and 1), handleRestrainedCons does not terminate with bottom —
the source compares the sender of sigSet[0] with itself instead of with
each entry — and it records both signed subsets, attributing the subset
signed by leaf 1 to leaf 0. -/
theorem handleRestrainedCons_missing_sender_check :
    handleRestrainedCons ⟨0, fun _ => true⟩ ⟨true, false, false, [], [], []⟩
        ⟨[exSig0, exSig1], [], []⟩ =
      Except.ok (⟨true, false, false, [],
        [((∅ : Finset Pair), [(0, exSig0)]),
          (({(1, [7])} : Finset Pair), [(0, exSig1)])], []⟩, []) ∧
    exSig0.senderIndex ≠ exSig1.senderIndex ∧
    decodePairList exSig0.appData = some [] ∧
    decodePairList exSig1.appData = some [(1, [7])] := by
  refine ⟨?_, by decide, by decide, by decide⟩
  rfl

end DMLS.RC

namespace DMLS.CAC

/-!
## C2, C4, C7 — the CAC Broadcast state machine (cac_broadcast.hpp)

Payloads (MessageT) and MessageRefs are Nat; the environment carries the
cipher-suite reference function over payloads, the caller-supplied Choice
callback and the default-constructed payload that a std::map operator[]
read of a missing entry produces. m_validSignatures, a std::map keyed by
the opaque signature hash, is ordered by that hash; since every emission
carries a fresh sequence number its inserts never collide, and no claim
observes its iteration order, so it is kept in insertion order here.
The newEpoch parameters are state fields: k (CAC_K = 1 in this
deployment), n, t = (n-k)/5, qw = 4t+k, qr = n-t; newEpoch establishes
t ≤ n, which lets plain Nat subtraction stand for the size_t n - t.
-/

structure CACSig where
  sender : Nat
  sequence : Nat
  witness : Bool
  ref : Nat
deriving DecidableEq, Repr

structure MessageSigs where
  signedWitness : Finset Nat
  signedReady : Finset Nat
deriving DecidableEq

def MessageSigs.witnessCount (s : MessageSigs) : Nat := s.signedWitness.card

def MessageSigs.readyCount (s : MessageSigs) : Nat := s.signedReady.card

structure CACEnv where
  mref : Nat → Nat
  choice : List Nat → Nat
  defaultMsg : Nat

structure CACState where
  k : Nat
  n : Nat
  t : Nat
  qw : Nat
  qr : Nat
  selfIndex : Nat
  sigCount : Nat
  hasSentReady : Bool
  messages : Mmap Nat
  validSignatures : List CACSig
  validMessages : Finset Nat
  seenMessages : Finset Nat
  waitingMessages : Finset Nat
  deliveredMessages : Finset Nat
  sequences : Mmap Nat
  signaturesCount : Mmap MessageSigs
deriving DecidableEq

/-- One callback invocation of m_deliver. -/
structure Deliver where
  ref : Nat
  payload : Nat
  conflictSet : List Nat
  sigs : List CACSig
deriving DecidableEq

/-- The callback invocations of one entry point. -/
structure CACOut where
  transmits : List Nat
  emitted : List CACSig
  bcasts : List (Bool × Option Nat)
  delivers : List Deliver
deriving DecidableEq

def CACOut.empty : CACOut := ⟨[], [], [], []⟩

def CACOut.merge (a b : CACOut) : CACOut :=
  ⟨a.transmits ++ b.transmits, a.emitted ++ b.emitted,
    a.bcasts ++ b.bcasts, a.delivers ++ b.delivers⟩

/-- The live m_signaturesCount entry of a ref (an absent ref reads as the
default-constructed MessageSigs). -/
def sigsAt (st : CACState) (r : Nat) : MessageSigs :=
  (mfind st.signaturesCount r).getD ⟨∅, ∅⟩

/-- CACBroadcast::emitSignature: next self sequence number, record into
m_validSignatures and into the witness or ready signer set of the ref. -/
def emitSignature (st : CACState) (witnessOrReady : Bool) (ref : Nat) :
    CACState × CACSig :=
  let sig : CACSig := ⟨st.selfIndex, st.sigCount, witnessOrReady, ref⟩
  ({ st with
      sigCount := st.sigCount + 1,
      validSignatures := st.validSignatures ++ [sig],
      signaturesCount := mupd st.signaturesCount ref (fun o =>
        let ms := o.getD ⟨∅, ∅⟩
        if witnessOrReady then
          { ms with signedWitness := insert st.selfIndex ms.signedWitness }
        else
          { ms with signedReady := insert st.selfIndex ms.signedReady }) },
    sig)

/-- CACBroadcast::broadcastMessage: mark m_hasSentReady on a READY
broadcast (CACSignature::READY is the false constant); the full
m_validSignatures set rides on the wire and is not re-recorded here. -/
def broadcastMessage (st : CACState) (witnessOrReady : Bool)
    (payload : Option Nat) : CACState × (Bool × Option Nat) :=
  ({ st with hasSentReady := if witnessOrReady = false then true
      else st.hasSentReady },
    (witnessOrReady, payload))

/-- CACBroadcast::messagesWithEnoughWitness: refs with at least qw witness
signatures, in map order. -/
def messagesWithEnoughWitness (st : CACState) : List Nat :=
  (st.signaturesCount.filter
    (fun p => st.qw ≤ p.2.witnessCount)).map Prod.fst

/-- The choices vector of validateMessage and receivedWitness: one
m_messages operator[] read per valid ref in set order, default-inserting
a placeholder payload for any ref missing from m_messages. Returns the
vector and the messages map after those reads. -/
def choicesOf (env : CACEnv) (st : CACState) : List Nat × Mmap Nat :=
  (st.validMessages.sort (· ≤ ·)).foldl
    (fun acc r =>
      (acc.1 ++ [mfindD acc.2 r env.defaultMsg],
        mupd acc.2 r (fun o => o.getD env.defaultMsg)))
    ([], st.messages)

/-- CACBroadcast::broadcast. -/
def broadcast (env : CACEnv) (st : CACState) (m : Nat) : CACState × CACOut :=
  if 0 < st.sigCount then (st, CACOut.empty)
  else
    let ref := env.mref m
    let st1 := { st with
      messages := mupd st.messages ref (fun o => o.getD m),
      seenMessages := insert ref st.seenMessages,
      validMessages := insert ref st.validMessages }
    let e := emitSignature st1 true ref
    let b := broadcastMessage e.1 true (some m)
    (b.1, ⟨[], [e.2], [b.2], []⟩)

/-- The choice block of validateMessage: if self has not signed, witness
the Choice of the payload slots of the validated refs. -/
def signChoice (env : CACEnv) (st0 : CACState) : CACState × CACOut :=
  if st0.sigCount = 0 then
    let ch := choicesOf env st0
    let chosen := env.choice ch.1
    let chosenRef := env.mref chosen
    let st0a := { st0 with
      messages := ch.2,
      waitingMessages := st0.waitingMessages.erase chosenRef }
    let e := emitSignature st0a true chosenRef
    let b := broadcastMessage e.1 true (some chosen)
    (b.1, (⟨[], [e.2], [b.2], []⟩ : CACOut))
  else (st0, CACOut.empty)

/-- CACBroadcast::validateMessage. -/
def validateMessage (env : CACEnv) (st : CACState) (m : Nat) :
    CACState × CACOut :=
  let ref := env.mref m
  let s1 := signChoice env { st with
    validMessages := insert ref st.validMessages }
  if ref ∈ s1.1.waitingMessages then
    let st2 := { s1.1 with waitingMessages := s1.1.waitingMessages.erase ref }
    let e := emitSignature st2 true ref
    let b := broadcastMessage e.1 true none
    (b.1, s1.2.merge ⟨[], [e.2], [b.2], []⟩)
  else s1

/-- The opening loop of receivedWitness: mark and transmit every tracked
ref whose payload is present but not yet handed to the gossip layer. -/
def transmitPhase (env : CACEnv) (st : CACState) : CACState × List Nat :=
  let toBeTransmitted := (st.signaturesCount.map Prod.fst).filter
    (fun r => r ∉ st.seenMessages ∧ r ∈ mkeys st.messages)
  ({ st with seenMessages := st.seenMessages ∪ toBeTransmitted.toFinset },
    toBeTransmitted.map (fun r => mfindD st.messages r env.defaultMsg))

/-- The choice block of receivedWitness: if self has not signed and some
message is valid, witness the Choice of the valid messages. -/
def choicePhase (env : CACEnv) (st : CACState) : CACState × CACOut :=
  if st.sigCount = 0 ∧ st.validMessages ≠ ∅ then
    let ch := choicesOf env st
    let chosen := env.choice ch.1
    let chosenRef := env.mref chosen
    let e := emitSignature { st with messages := ch.2 } true chosenRef
    let b := broadcastMessage e.1 true (some chosen)
    (b.1, ⟨[], [e.2], [b.2], []⟩)
  else (st, CACOut.empty)

/-- The READY emission of one quorum-loop iteration of receivedWitness:
emit READY for the ref unless self already readied it. -/
def readyStep (st : CACState) (m : Nat) :
    CACState × (List CACSig × List (Bool × Option Nat)) :=
  if st.selfIndex ∉ (sigsAt st m).signedReady then
    ((broadcastMessage (emitSignature st false m).1 false none).1,
      ([(emitSignature st false m).2],
        [(broadcastMessage (emitSignature st false m).1 false none).2]))
  else (st, ([], []))

/-- The immediate-delivery check of one quorum-loop iteration: when
n > 5t, the ref holds at least n - t witnesses, m_signaturesCount has a
single entry and the ref is not in m_deliveredMessages, m_deliver is
invoked — and m_deliveredMessages is left alone. -/
def fastStep (env : CACEnv) (st : CACState) (m : Nat) :
    CACState × List Deliver :=
  if 5 * st.t < st.n ∧ st.n - st.t ≤ (sigsAt st m).witnessCount ∧
      st.signaturesCount.length = 1 ∧ m ∉ st.deliveredMessages then
    ({ st with
        messages := mupd st.messages m (fun o => o.getD env.defaultMsg) },
      [(⟨m, mfindD st.messages m env.defaultMsg, [m],
        st.validSignatures⟩ : Deliver)])
  else (st, [])

/-- The quorum loop of receivedWitness over messagesWithEnoughWitness. -/
def readyFastLoop (env : CACEnv) (st : CACState) :
    List Nat → CACState × (List CACSig × List (Bool × Option Nat) × List Deliver)
  | [] => (st, ([], [], []))
  | m :: rest =>
    ((readyFastLoop env (fastStep env (readyStep st m).1 m).1 rest).1,
      ((readyStep st m).2.1 ++
        (readyFastLoop env (fastStep env (readyStep st m).1 m).1 rest).2.1,
       (readyStep st m).2.2 ++
        (readyFastLoop env (fastStep env (readyStep st m).1 m).1 rest).2.2.1,
       (fastStep env (readyStep st m).1 m).2 ++
        (readyFastLoop env (fastStep env (readyStep st m).1 m).1 rest).2.2.2))

/-- The quorum block of receivedWitness. -/
def quorumPhase (env : CACEnv) (st : CACState) : CACState × CACOut :=
  if st.signaturesCount.any
      (fun p => (st.n + st.t) / 2 + 1 ≤ p.2.witnessCount) then
    let s := readyFastLoop env st (messagesWithEnoughWitness st)
    (s.1, ⟨[], s.2.1, s.2.2.1, s.2.2.2⟩)
  else (st, CACOut.empty)

/-- The find_if threshold of the late block: witnessCount ≥
seenProcesses - 2t computed in size_t, so a negative difference wraps to
an unsatisfiable bound instead of truncating to zero. -/
def wcThreshold (st : CACState) (seen : Nat) (ms : MessageSigs) : Bool :=
  if 2 * st.t ≤ seen then decide (seen - 2 * st.t ≤ ms.witnessCount)
  else decide (2 ^ 64 + seen - 2 * st.t ≤ ms.witnessCount)

/-- The fallback scan of the late block: over the copied witnessed map,
witness (or queue in m_waitingMessages) every ref with enough witnesses
that self has not signed. -/
def scanWitnessLoop (st : CACState) (minW : Nat) :
    List (Nat × MessageSigs) → CACState × (List CACSig × List (Bool × Option Nat))
  | [] => (st, ([], []))
  | (r, ms) :: rest =>
    if minW ≤ ms.witnessCount ∧ r ∉ st.waitingMessages ∧
        st.selfIndex ∉ (sigsAt st r).signedWitness then
      if r ∈ st.validMessages then
        let e := emitSignature st true r
        let b := broadcastMessage e.1 true none
        let s := scanWitnessLoop b.1 minW rest
        (s.1, (e.2 :: s.2.1, b.2 :: s.2.2))
      else
        scanWitnessLoop
          { st with waitingMessages := insert r st.waitingMessages } minW rest
    else scanWitnessLoop st minW rest

/-- The late block of receivedWitness (seenProcesses ≥ n - t and no READY
sent yet): witness the first ref with witnesses ≥ seenProcesses - 2t when
valid, else scan the witnessed refs against
max(1, n - t·(count+1)) — computed in int, so a negative value clamps
to 1. -/
def latePhase (st : CACState) : CACState × CACOut :=
  let seenProcesses := st.sequences.length + 1
  if st.n - st.t ≤ seenProcesses ∧ st.hasSentReady = false then
    let found :=
      match st.signaturesCount.find? (fun p => wcThreshold st seenProcesses p.2) with
      | some p =>
        if 5 * st.t < st.n ∧ st.selfIndex ∉ (sigsAt st p.1).signedWitness ∧
            p.1 ∈ st.validMessages then some p.1 else none
      | none => none
    match found with
    | some r =>
      let e := emitSignature st true r
      let b := broadcastMessage e.1 true none
      (b.1, ⟨[], [e.2], [b.2], []⟩)
    | none =>
      let wm := st.signaturesCount.filter (fun p => 0 < p.2.witnessCount)
      let minW := if st.t * (wm.length + 1) < st.n
        then st.n - st.t * (wm.length + 1) else 1
      let s := scanWitnessLoop st minW wm
      (s.1, ⟨[], s.2.1, s.2.2, []⟩)
  else (st, CACOut.empty)

/-- CACBroadcast::receivedWitness. -/
def receivedWitness (env : CACEnv) (st : CACState) : CACState × CACOut :=
  ((latePhase (quorumPhase env
      (choicePhase env (transmitPhase env st).1).1).1).1,
    CACOut.merge ⟨(transmitPhase env st).2, [], [], []⟩
      (CACOut.merge (choicePhase env (transmitPhase env st).1).2
        (CACOut.merge
          (quorumPhase env (choicePhase env (transmitPhase env st).1).1).2
          (latePhase (quorumPhase env
            (choicePhase env (transmitPhase env st).1).1).1).2)))

/-- The READY-emission loop of receivedReady. -/
def emitReadyLoop (st : CACState) :
    List Nat → CACState × (List CACSig × List (Bool × Option Nat))
  | [] => (st, ([], []))
  | m :: rest =>
    if st.selfIndex ∉ (sigsAt st m).signedReady then
      let e := emitSignature st false m
      let b := broadcastMessage e.1 false none
      let s := emitReadyLoop b.1 rest
      (s.1, (e.2 :: s.2.1, b.2 :: s.2.2))
    else emitReadyLoop st rest

/-- The delivery loop of receivedReady over the conflict set: a ref with
at least qr ready signers that is not yet delivered is inserted into
m_deliveredMessages and delivered with the conflict set and the full
m_validSignatures. -/
def deliverLoop (env : CACEnv) (st : CACState) (cs : List Nat) :
    List Nat → CACState × List Deliver
  | [] => (st, [])
  | r :: rest =>
    if st.qr ≤ (sigsAt st r).readyCount ∧ r ∉ st.deliveredMessages then
      let payload := mfindD st.messages r env.defaultMsg
      let st1 := { st with
        deliveredMessages := insert r st.deliveredMessages,
        messages := mupd st.messages r (fun o => o.getD env.defaultMsg) }
      let s := deliverLoop env st1 cs rest
      (s.1, ⟨r, payload, cs, st.validSignatures⟩ :: s.2)
    else deliverLoop env st cs rest

/-- The conflict set computed by receivedReady: every ref with at least k
witness signatures, in map order. -/
def conflictSetOf (st : CACState) : List Nat :=
  (st.signaturesCount.filter (fun p => st.k ≤ p.2.witnessCount)).map Prod.fst

/-- CACBroadcast::receivedReady. Nothing at all happens when no ref has a
witness quorum. -/
def receivedReady (env : CACEnv) (st : CACState) : CACState × CACOut :=
  if (messagesWithEnoughWitness st).isEmpty then (st, CACOut.empty)
  else
    ((deliverLoop env (emitReadyLoop st (messagesWithEnoughWitness st)).1
        (conflictSetOf (emitReadyLoop st (messagesWithEnoughWitness st)).1)
        (conflictSetOf (emitReadyLoop st (messagesWithEnoughWitness st)).1)).1,
      ⟨[], (emitReadyLoop st (messagesWithEnoughWitness st)).2.1,
        (emitReadyLoop st (messagesWithEnoughWitness st)).2.2,
        (deliverLoop env (emitReadyLoop st (messagesWithEnoughWitness st)).1
          (conflictSetOf (emitReadyLoop st (messagesWithEnoughWitness st)).1)
          (conflictSetOf (emitReadyLoop st (messagesWithEnoughWitness st)).1)).2⟩)

end DMLS.CAC


namespace DMLS.CAC

theorem mem_mfind {α : Type} {l : Mmap α} {k : Nat} {v : α}
    (hs : Msorted l) (h : (k, v) ∈ l) : mfind l k = some v := by
  induction l with
  | nil => simp at h
  | cons hd t ih =>
    obtain ⟨k0, v0⟩ := hd
    rcases List.mem_cons.mp h with hh | hh
    · injection hh with h1 h2
      subst h1
      subst h2
      simp [mfind]
    · have hne : k ≠ k0 := by
        intro he
        subst he
        have := (List.pairwise_cons.mp hs).1 (k, v) hh
        omega
      simp only [mfind, if_neg hne]
      exact ih (List.Pairwise.of_cons hs) hh

/-- The witness-signer projection of m_signaturesCount: READY emissions
leave it unchanged. -/
def wproj (l : Mmap MessageSigs) : List (Nat × Finset Nat) :=
  l.map (fun p => (p.1, p.2.signedWitness))

theorem filter_wc_proj {l₁ l₂ : Mmap MessageSigs} (c : Nat)
    (h : wproj l₁ = wproj l₂) :
    (l₁.filter (fun p => c ≤ p.2.witnessCount)).map Prod.fst =
    (l₂.filter (fun p => c ≤ p.2.witnessCount)).map Prod.fst := by
  induction l₁ generalizing l₂ with
  | nil =>
    have h2 : l₂ = [] := by
      have := h.symm
      simpa [wproj] using this
    simp [h2]
  | cons p₁ t₁ ih =>
    cases l₂ with
    | nil => simp [wproj] at h
    | cons p₂ t₂ =>
      simp only [wproj, List.map_cons, List.cons.injEq] at h
      obtain ⟨hh, ht⟩ := h
      injection hh with h1 h2
      have hwc : p₁.2.witnessCount = p₂.2.witnessCount := by
        unfold MessageSigs.witnessCount
        rw [h2]
      by_cases hc : c ≤ p₁.2.witnessCount
      · have hc2 : c ≤ p₂.2.witnessCount := hwc ▸ hc
        simp only [List.filter_cons, if_pos (decide_eq_true hc),
          if_pos (decide_eq_true hc2), List.map_cons, h1]
        rw [ih ht]
      · have hc2 : ¬ c ≤ p₂.2.witnessCount := hwc ▸ hc
        simp only [List.filter_cons]
        rw [if_neg (by simpa using hc), if_neg (by simpa using hc2)]
        exact ih ht

theorem msorted_filter_keys_nodup {α : Type} (l : Mmap α)
    (p : Nat × α → Bool) (hs : Msorted l) :
    ((l.filter p).map Prod.fst).Nodup := by
  have hp : (l.filter p).Pairwise (fun a b => a.1 < b.1) := hs.filter p
  have h2 : ((l.filter p).map Prod.fst).Pairwise (· < ·) :=
    List.Pairwise.map Prod.fst (fun a b h => h) hp
  exact h2.imp Nat.ne_of_lt

theorem mWEW_mem (st : CACState) (m : Nat) :
    m ∈ messagesWithEnoughWitness st ↔
    ∃ ms, (m, ms) ∈ st.signaturesCount ∧ st.qw ≤ ms.witnessCount := by
  unfold messagesWithEnoughWitness
  constructor
  · intro h
    rcases List.mem_map.mp h with ⟨q, hq, hqm⟩
    rcases List.mem_filter.mp hq with ⟨hq1, hq2⟩
    exact ⟨q.2, by rw [← hqm]; exact hq1, by simpa using hq2⟩
  · rintro ⟨ms, hmem, hc⟩
    exact List.mem_map.mpr ⟨(m, ms),
      List.mem_filter.mpr ⟨hmem, by simpa using hc⟩, rfl⟩

/-- Field bookkeeping of one emitSignature followed by one
broadcastMessage, the emission pattern of every loop body. -/
theorem emit_bcast_fields (st : CACState) (w : Bool) (r : Nat)
    (p : Option Nat) :
    (broadcastMessage (emitSignature st w r).1 w p).1.k = st.k ∧
    (broadcastMessage (emitSignature st w r).1 w p).1.n = st.n ∧
    (broadcastMessage (emitSignature st w r).1 w p).1.t = st.t ∧
    (broadcastMessage (emitSignature st w r).1 w p).1.qw = st.qw ∧
    (broadcastMessage (emitSignature st w r).1 w p).1.qr = st.qr ∧
    (broadcastMessage (emitSignature st w r).1 w p).1.selfIndex = st.selfIndex ∧
    (broadcastMessage (emitSignature st w r).1 w p).1.messages = st.messages ∧
    (broadcastMessage (emitSignature st w r).1 w p).1.validMessages =
      st.validMessages ∧
    (broadcastMessage (emitSignature st w r).1 w p).1.seenMessages =
      st.seenMessages ∧
    (broadcastMessage (emitSignature st w r).1 w p).1.waitingMessages =
      st.waitingMessages ∧
    (broadcastMessage (emitSignature st w r).1 w p).1.deliveredMessages =
      st.deliveredMessages ∧
    (broadcastMessage (emitSignature st w r).1 w p).1.sequences =
      st.sequences ∧
    (broadcastMessage (emitSignature st w r).1 w p).1.sigCount =
      st.sigCount + 1 ∧
    (broadcastMessage (emitSignature st w r).1 w p).1.validSignatures =
      st.validSignatures ++ [⟨st.selfIndex, st.sigCount, w, r⟩] ∧
    (broadcastMessage (emitSignature st w r).1 w p).1.signaturesCount =
      mupd st.signaturesCount r (fun o =>
        let ms := o.getD ⟨∅, ∅⟩
        if w then
          { ms with signedWitness := insert st.selfIndex ms.signedWitness }
        else
          { ms with signedReady := insert st.selfIndex ms.signedReady }) ∧
    (broadcastMessage (emitSignature st w r).1 w p).1.hasSentReady =
      (if w = false then true else st.hasSentReady) := by
  refine ⟨rfl, rfl, rfl, rfl, rfl, rfl, rfl, rfl, rfl, rfl, rfl, rfl, rfl,
    rfl, rfl, rfl⟩

theorem emitReadyLoop_cons_emit (st : CACState) (m : Nat) (rest : List Nat)
    (hsr : st.selfIndex ∉ (sigsAt st m).signedReady) :
    emitReadyLoop st (m :: rest) =
      ((emitReadyLoop
          (broadcastMessage (emitSignature st false m).1 false none).1 rest).1,
        ((emitSignature st false m).2 ::
          (emitReadyLoop
            (broadcastMessage (emitSignature st false m).1 false none).1 rest).2.1,
         (broadcastMessage (emitSignature st false m).1 false none).2 ::
          (emitReadyLoop
            (broadcastMessage (emitSignature st false m).1 false none).1 rest).2.2)) := by
  simp only [emitReadyLoop]
  rw [if_pos hsr]

theorem emitReadyLoop_cons_skip (st : CACState) (m : Nat) (rest : List Nat)
    (hsr : ¬ st.selfIndex ∉ (sigsAt st m).signedReady) :
    emitReadyLoop st (m :: rest) = emitReadyLoop st rest := by
  simp only [emitReadyLoop]
  rw [if_neg hsr]

/-- The after-emission state of one READY emission for a tracked ref. -/
theorem ready_emit_sigsAt (st : CACState) (m : Nat)
    (hs : Msorted st.signaturesCount) :
    sigsAt (broadcastMessage (emitSignature st false m).1 false none).1 m =
      { sigsAt st m with
        signedReady := insert st.selfIndex (sigsAt st m).signedReady } ∧
    (∀ x, x ≠ m →
      sigsAt (broadcastMessage (emitSignature st false m).1 false none).1 x =
        sigsAt st x) := by
  have hsc := (emit_bcast_fields st false m none).2.2.2.2.2.2.2.2.2.2.2.2.2.2.1
  constructor
  · unfold sigsAt
    rw [hsc, mfind_mupd_self st.signaturesCount m _ hs]
    simp only [Option.getD_some]
    cases hm : mfind st.signaturesCount m <;> simp [sigsAt, hm]
  · intro x hx
    unfold sigsAt
    rw [hsc, mfind_mupd_ne st.signaturesCount m x _ hx]

/-- State bookkeeping across the READY-emission loop: parameters, the
delivered set, payload store and witness signers are untouched; ready
signer sets only grow; sortedness is maintained. -/
theorem emitReadyLoop_state (L : List Nat) :
    ∀ st : CACState, Msorted st.signaturesCount →
    (∀ m ∈ L, m ∈ mkeys st.signaturesCount) →
    (emitReadyLoop st L).1.k = st.k ∧
    (emitReadyLoop st L).1.qr = st.qr ∧
    (emitReadyLoop st L).1.deliveredMessages = st.deliveredMessages ∧
    (emitReadyLoop st L).1.messages = st.messages ∧
    wproj (emitReadyLoop st L).1.signaturesCount = wproj st.signaturesCount ∧
    Msorted (emitReadyLoop st L).1.signaturesCount ∧
    (∀ x, (sigsAt st x).signedReady ⊆
      (sigsAt (emitReadyLoop st L).1 x).signedReady) := by
  induction L with
  | nil =>
    intro st hs _
    exact ⟨rfl, rfl, rfl, rfl, rfl, hs, fun x => Finset.Subset.refl _⟩
  | cons m rest ih =>
    intro st hs hmem
    by_cases hsr : st.selfIndex ∉ (sigsAt st m).signedReady
    · rw [emitReadyLoop_cons_emit st m rest hsr]
      have hm : m ∈ mkeys st.signaturesCount := hmem m (by simp)
      have hB := emit_bcast_fields st false m none
      have hBsc := hB.2.2.2.2.2.2.2.2.2.2.2.2.2.2.1
      have hBsorted : Msorted (broadcastMessage
          (emitSignature st false m).1 false none).1.signaturesCount := by
        rw [hBsc]
        exact msorted_mupd _ _ _ hs
      have hBkeys : mkeys (broadcastMessage
          (emitSignature st false m).1 false none).1.signaturesCount =
          mkeys st.signaturesCount := by
        rw [hBsc]
        exact mkeys_mupd_of_mem _ _ _ hs hm
      have hBproj : wproj (broadcastMessage
          (emitSignature st false m).1 false none).1.signaturesCount =
          wproj st.signaturesCount := by
        rw [hBsc]
        exact mupd_proj_eq st.signaturesCount m _
          (fun ms => ms.signedWitness) hs hm (fun v => rfl)
      obtain ⟨ihk, ihqr, ihdel, ihmsg, ihproj, ihsort, ihready⟩ :=
        ih (broadcastMessage (emitSignature st false m).1 false none).1
          hBsorted (fun x hx => by rw [hBkeys]; exact hmem x (by simp [hx]))
      refine ⟨?_, ?_, ?_, ?_, ?_, ihsort, ?_⟩
      · rw [ihk, hB.1]
      · rw [ihqr, hB.2.2.2.2.1]
      · rw [ihdel, hB.2.2.2.2.2.2.2.2.2.2.1]
      · rw [ihmsg, hB.2.2.2.2.2.2.1]
      · rw [ihproj, hBproj]
      · intro x
        refine Finset.Subset.trans ?_ (ihready x)
        by_cases hx : x = m
        · subst hx
          rw [(ready_emit_sigsAt st x hs).1]
          exact Finset.subset_insert _ _
        · rw [(ready_emit_sigsAt st m hs).2 x hx]
    · rw [emitReadyLoop_cons_skip st m rest hsr]
      exact ih st hs (fun x hx => hmem x (by simp [hx]))

/-- Every quorum ref that self has not yet readied gets a READY signature
emitted by the loop. -/
theorem emitReadyLoop_emits (L : List Nat) :
    ∀ st : CACState, Msorted st.signaturesCount → L.Nodup →
    (∀ m ∈ L, m ∈ mkeys st.signaturesCount) →
    ∀ m ∈ L, st.selfIndex ∉ (sigsAt st m).signedReady →
    ∃ sig ∈ (emitReadyLoop st L).2.1, sig.witness = false ∧ sig.ref = m := by
  induction L with
  | nil =>
    intro st _ _ _ m hm
    simp at hm
  | cons m0 rest ih =>
    intro st hs hnd hmem m hm hnr
    by_cases hsr : st.selfIndex ∉ (sigsAt st m0).signedReady
    · rw [emitReadyLoop_cons_emit st m0 rest hsr]
      rcases List.mem_cons.mp hm with hm2 | hm2
      · subst hm2
        exact ⟨(emitSignature st false m).2, by simp, rfl, rfl⟩
      · have hne : m ≠ m0 := by
          intro he
          subst he
          exact (List.nodup_cons.mp hnd).1 hm2
        have hm0 : m0 ∈ mkeys st.signaturesCount := hmem m0 (by simp)
        have hB := emit_bcast_fields st false m0 none
        have hBsc := hB.2.2.2.2.2.2.2.2.2.2.2.2.2.2.1
        have hBsorted : Msorted (broadcastMessage
            (emitSignature st false m0).1 false none).1.signaturesCount := by
          rw [hBsc]
          exact msorted_mupd _ _ _ hs
        have hBkeys : mkeys (broadcastMessage
            (emitSignature st false m0).1 false none).1.signaturesCount =
            mkeys st.signaturesCount := by
          rw [hBsc]
          exact mkeys_mupd_of_mem _ _ _ hs hm0
        have hnr2 : (broadcastMessage (emitSignature st false m0).1 false
            none).1.selfIndex ∉ (sigsAt (broadcastMessage
            (emitSignature st false m0).1 false none).1 m).signedReady := by
          rw [hB.2.2.2.2.2.1, (ready_emit_sigsAt st m0 hs).2 m hne]
          exact hnr
        obtain ⟨sig, hsig, hw, hr⟩ :=
          ih (broadcastMessage (emitSignature st false m0).1 false none).1
            hBsorted (List.nodup_cons.mp hnd).2
            (fun x hx => by rw [hBkeys]; exact hmem x (by simp [hx]))
            m hm2 hnr2
        exact ⟨sig, by simp [hsig], hw, hr⟩
    · rw [emitReadyLoop_cons_skip st m0 rest hsr]
      rcases List.mem_cons.mp hm with hm2 | hm2
      · subst hm2
        exact absurd hnr hsr
      · exact ih st hs (List.nodup_cons.mp hnd).2
          (fun x hx => hmem x (by simp [hx])) m hm2 hnr

theorem deliverLoop_cons_deliver (env : CACEnv) (st : CACState)
    (cs : List Nat) (r : Nat) (rest : List Nat)
    (hc : st.qr ≤ (sigsAt st r).readyCount ∧ r ∉ st.deliveredMessages) :
    deliverLoop env st cs (r :: rest) =
      ((deliverLoop env { st with
          deliveredMessages := insert r st.deliveredMessages,
          messages := mupd st.messages r (fun o => o.getD env.defaultMsg) }
          cs rest).1,
        (⟨r, mfindD st.messages r env.defaultMsg, cs, st.validSignatures⟩ :
          Deliver) ::
        (deliverLoop env { st with
          deliveredMessages := insert r st.deliveredMessages,
          messages := mupd st.messages r (fun o => o.getD env.defaultMsg) }
          cs rest).2) := by
  simp only [deliverLoop]
  rw [if_pos hc]

theorem deliverLoop_cons_skip (env : CACEnv) (st : CACState)
    (cs : List Nat) (r : Nat) (rest : List Nat)
    (hc : ¬ (st.qr ≤ (sigsAt st r).readyCount ∧ r ∉ st.deliveredMessages)) :
    deliverLoop env st cs (r :: rest) = deliverLoop env st cs rest := by
  simp only [deliverLoop]
  rw [if_neg hc]

/-- Every delivery of the loop carries the conflict set and the full
current m_validSignatures, which the loop never changes. -/
theorem deliverLoop_out (env : CACEnv) (cs : List Nat) (L : List Nat) :
    ∀ st : CACState,
    (deliverLoop env st cs L).1.validSignatures = st.validSignatures ∧
    ∀ d ∈ (deliverLoop env st cs L).2,
      d.conflictSet = cs ∧ d.sigs = st.validSignatures := by
  induction L with
  | nil =>
    intro st
    exact ⟨rfl, by simp [deliverLoop]⟩
  | cons r rest ih =>
    intro st
    by_cases hc : st.qr ≤ (sigsAt st r).readyCount ∧ r ∉ st.deliveredMessages
    · rw [deliverLoop_cons_deliver env st cs r rest hc]
      obtain ⟨ihv, ihd⟩ := ih { st with
        deliveredMessages := insert r st.deliveredMessages,
        messages := mupd st.messages r (fun o => o.getD env.defaultMsg) }
      refine ⟨ihv, ?_⟩
      intro d hd
      rcases List.mem_cons.mp hd with hd | hd
      · subst hd
        exact ⟨rfl, rfl⟩
      · exact ihd d hd
    · rw [deliverLoop_cons_skip env st cs r rest hc]
      exact ih st

/-- Every conflict-set ref with a ready quorum that is not yet delivered
is delivered by the loop. -/
theorem deliverLoop_delivers (env : CACEnv) (cs : List Nat) (L : List Nat) :
    ∀ st : CACState, L.Nodup →
    ∀ x ∈ L, st.qr ≤ (sigsAt st x).readyCount → x ∉ st.deliveredMessages →
    ∃ d ∈ (deliverLoop env st cs L).2, d.ref = x := by
  induction L with
  | nil =>
    intro st _ x hx
    simp at hx
  | cons r rest ih =>
    intro st hnd x hx hqr hnd2
    by_cases hc : st.qr ≤ (sigsAt st r).readyCount ∧ r ∉ st.deliveredMessages
    · rw [deliverLoop_cons_deliver env st cs r rest hc]
      rcases List.mem_cons.mp hx with hx2 | hx2
      · subst hx2
        exact ⟨⟨x, mfindD st.messages x env.defaultMsg, cs, st.validSignatures⟩,
          List.mem_cons_self _ _, rfl⟩
      · have hne : x ≠ r := by
          intro he
          subst he
          exact (List.nodup_cons.mp hnd).1 hx2
        obtain ⟨d, hd, hdr⟩ := ih { st with
            deliveredMessages := insert r st.deliveredMessages,
            messages := mupd st.messages r (fun o => o.getD env.defaultMsg) }
          (List.nodup_cons.mp hnd).2 x hx2 hqr
          (by simp [Finset.mem_insert, hne, hnd2])
        exact ⟨d, List.mem_cons_of_mem _ hd, hdr⟩
    · rw [deliverLoop_cons_skip env st cs r rest hc]
      rcases List.mem_cons.mp hx with hx2 | hx2
      · subst hx2
        exact absurd ⟨hqr, hnd2⟩ hc
      · exact ih st (List.nodup_cons.mp hnd).2 x hx2 hqr hnd2

/-- C2 (amended): when a READY CAC message is processed and at least one
ref holds a witness quorum (receivedReady returns immediately otherwise,
whatever ready quorums exist), a READY signature goes out for every
quorum ref self has not yet readied, every delivery carries the conflict
set — exactly the refs with at least k witness signatures — together with
the full valid-signature set, and every conflict-set ref with at least qr
ready signers not yet delivered is delivered upward. -/
theorem receivedReady_spec (env : CACEnv) (st : CACState)
    (hs : Msorted st.signaturesCount)
    (hne : ∃ p ∈ st.signaturesCount, st.qw ≤ p.2.witnessCount) :
    (∀ p ∈ st.signaturesCount, st.qw ≤ p.2.witnessCount →
      st.selfIndex ∉ p.2.signedReady →
      ∃ sig ∈ (receivedReady env st).2.emitted,
        sig.witness = false ∧ sig.ref = p.1) ∧
    (∀ d ∈ (receivedReady env st).2.delivers,
      d.conflictSet = (st.signaturesCount.filter
        (fun p => st.k ≤ p.2.witnessCount)).map Prod.fst ∧
      d.sigs = (receivedReady env st).1.validSignatures) ∧
    (∀ p ∈ st.signaturesCount, st.k ≤ p.2.witnessCount →
      st.qr ≤ p.2.readyCount → p.1 ∉ st.deliveredMessages →
      ∃ d ∈ (receivedReady env st).2.delivers, d.ref = p.1) := by
  obtain ⟨p0, hp0, hp0w⟩ := hne
  have hLne : (messagesWithEnoughWitness st).isEmpty = false := by
    have : p0.1 ∈ messagesWithEnoughWitness st :=
      (mWEW_mem st p0.1).mpr ⟨p0.2, by simpa using hp0, hp0w⟩
    cases hL : messagesWithEnoughWitness st with
    | nil => rw [hL] at this; simp at this
    | cons a l => simp [List.isEmpty]
  have hLmem : ∀ m ∈ messagesWithEnoughWitness st,
      m ∈ mkeys st.signaturesCount := by
    intro m hm
    obtain ⟨ms, hmem, _⟩ := (mWEW_mem st m).mp hm
    exact (mem_mkeys_iff st.signaturesCount m).mpr ⟨ms, hmem⟩
  have hLnd : (messagesWithEnoughWitness st).Nodup :=
    msorted_filter_keys_nodup st.signaturesCount _ hs
  obtain ⟨hEk, hEqr, hEdel, hEmsg, hEproj, hEsort, hEready⟩ :=
    emitReadyLoop_state (messagesWithEnoughWitness st) st hs hLmem
  have hCS : conflictSetOf (emitReadyLoop st (messagesWithEnoughWitness st)).1 =
      (st.signaturesCount.filter
        (fun p => st.k ≤ p.2.witnessCount)).map Prod.fst := by
    unfold conflictSetOf
    rw [hEk]
    exact filter_wc_proj st.k hEproj
  have hstep : receivedReady env st =
      ((deliverLoop env (emitReadyLoop st (messagesWithEnoughWitness st)).1
          ((st.signaturesCount.filter
            (fun p => st.k ≤ p.2.witnessCount)).map Prod.fst)
          ((st.signaturesCount.filter
            (fun p => st.k ≤ p.2.witnessCount)).map Prod.fst)).1,
        ⟨[], (emitReadyLoop st (messagesWithEnoughWitness st)).2.1,
          (emitReadyLoop st (messagesWithEnoughWitness st)).2.2,
          (deliverLoop env (emitReadyLoop st (messagesWithEnoughWitness st)).1
            ((st.signaturesCount.filter
              (fun p => st.k ≤ p.2.witnessCount)).map Prod.fst)
            ((st.signaturesCount.filter
              (fun p => st.k ≤ p.2.witnessCount)).map Prod.fst)).2⟩) := by
    unfold receivedReady
    rw [hLne]
    simp only [Bool.false_eq_true, if_false]
    rw [hCS]
  obtain ⟨hDv, hDout⟩ := deliverLoop_out env
    ((st.signaturesCount.filter (fun p => st.k ≤ p.2.witnessCount)).map Prod.fst)
    ((st.signaturesCount.filter (fun p => st.k ≤ p.2.witnessCount)).map Prod.fst)
    (emitReadyLoop st (messagesWithEnoughWitness st)).1
  refine ⟨?_, ?_, ?_⟩
  · intro p hp hpw hpr
    have hmL : p.1 ∈ messagesWithEnoughWitness st :=
      (mWEW_mem st p.1).mpr ⟨p.2, by simpa using hp, hpw⟩
    have hsig : sigsAt st p.1 = p.2 := by
      unfold sigsAt
      rw [mem_mfind hs (show (p.1, p.2) ∈ st.signaturesCount by simpa using hp)]
      rfl
    obtain ⟨sig, hsm, hsw, hsr⟩ := emitReadyLoop_emits
      (messagesWithEnoughWitness st) st hs hLnd hLmem p.1 hmL
      (by rw [hsig]; exact hpr)
    rw [hstep]
    exact ⟨sig, hsm, hsw, hsr⟩
  · intro d hd
    rw [hstep] at hd
    have hd2 := hDout d hd
    rw [hstep]
    exact ⟨hd2.1, by rw [hd2.2, hDv]⟩
  · intro p hp hpk hpqr hpd
    have hsig : sigsAt st p.1 = p.2 := by
      unfold sigsAt
      rw [mem_mfind hs (show (p.1, p.2) ∈ st.signaturesCount by simpa using hp)]
      rfl
    have hmem : p.1 ∈ (st.signaturesCount.filter
        (fun p => st.k ≤ p.2.witnessCount)).map Prod.fst := by
      exact List.mem_map.mpr ⟨p, List.mem_filter.mpr ⟨hp, by simpa using hpk⟩, rfl⟩
    have hCSnd : ((st.signaturesCount.filter
        (fun p => st.k ≤ p.2.witnessCount)).map Prod.fst).Nodup :=
      msorted_filter_keys_nodup st.signaturesCount _ hs
    have hqr2 : (emitReadyLoop st (messagesWithEnoughWitness st)).1.qr ≤
        (sigsAt (emitReadyLoop st (messagesWithEnoughWitness st)).1
          p.1).readyCount := by
      rw [hEqr]
      refine Nat.le_trans ?_ (Finset.card_le_card (hEready p.1))
      rw [hsig]
      exact hpqr
    have hpd2 : p.1 ∉ (emitReadyLoop st
        (messagesWithEnoughWitness st)).1.deliveredMessages := by
      rw [hEdel]
      exact hpd
    obtain ⟨d, hd, hdr⟩ := deliverLoop_delivers env
      ((st.signaturesCount.filter (fun p => st.k ≤ p.2.witnessCount)).map Prod.fst)
      ((st.signaturesCount.filter (fun p => st.k ≤ p.2.witnessCount)).map Prod.fst)
      (emitReadyLoop st (messagesWithEnoughWitness st)).1
      hCSnd p.1 hmem hqr2 hpd2
    rw [hstep]
    exact ⟨d, hd, hdr⟩

/-- A trivial environment for the concrete CAC instances: the reference
function is the identity, Choice picks the first candidate. -/
def cacEnv0 : CACEnv := ⟨fun x => x, fun l => l.headD 0, 0⟩

/-- A newEpoch(n = 6) state (k = 1, t = 1, qw = 5, qr = 5) holding one
ref with a full witness quorum and a ready quorum that self has not yet
readied. -/
def rrWitnessSt : CACState :=
  ⟨1, 6, 1, 5, 5, 0, 1, false, [(4, 44)], [], ∅, ∅, ∅, ∅, [],
    [(4, ⟨{0, 1, 2, 3, 4}, {1, 2, 3, 4, 5}⟩)]⟩

/-- Concrete instantiation of the amended C2: the quorum ref is delivered
upward. -/
theorem receivedReady_spec_witness :
    ∃ d ∈ (receivedReady cacEnv0 rrWitnessSt).2.delivers, d.ref = 4 := by
  have h := receivedReady_spec cacEnv0 rrWitnessSt (by decide)
    ⟨(4, ⟨{0, 1, 2, 3, 4}, {1, 2, 3, 4, 5}⟩), by simp [rrWitnessSt], by decide⟩
  exact h.2.2 (4, ⟨{0, 1, 2, 3, 4}, {1, 2, 3, 4, 5}⟩)
    (by simp [rrWitnessSt]) (by decide) (by decide) (by decide)

/-- A newEpoch(n = 6) state where ref 4 has one witness signature
(at least k = 1) and five ready signers (at least qr = 5) and is not yet
delivered. -/
def rrCexSt : CACState :=
  ⟨1, 6, 1, 5, 5, 0, 1, false, [(4, 44)], [], ∅, ∅, ∅, ∅, [],
    [(4, ⟨{0}, {0, 1, 2, 3, 4}⟩)]⟩

/-- Refutation of C2 as stated: with no witness-quorum ref, receivedReady
does nothing at all — ref 4 sits in the conflict set (witnesses ≥ k) with
a full ready quorum, undelivered, yet no delivery happens and the state
does not change. -/
theorem receivedReady_counterexample :
    (receivedReady cacEnv0 rrCexSt).2.delivers = [] ∧
    (receivedReady cacEnv0 rrCexSt).1 = rrCexSt ∧
    rrCexSt.k ≤ (sigsAt rrCexSt 4).witnessCount ∧
    rrCexSt.qr ≤ (sigsAt rrCexSt 4).readyCount ∧
    (4 : Nat) ∉ rrCexSt.deliveredMessages := by
  decide

end DMLS.CAC

namespace DMLS.CAC

/-!
## C7 — the immediate-delivery fast path of receivedWitness

receivedWitness never writes m_deliveredMessages: every phase of it is
checked to leave the field untouched, while the fast-path branch still
invokes m_deliver. Only the deliverLoop of receivedReady inserts into
m_deliveredMessages, so a ref delivered through the fast path is
delivered again by the next fast-path round.
-/

theorem readyStep_emit (st : CACState) (m : Nat)
    (h : st.selfIndex ∉ (sigsAt st m).signedReady) :
    readyStep st m =
      ((broadcastMessage (emitSignature st false m).1 false none).1,
        ([(emitSignature st false m).2],
          [(broadcastMessage (emitSignature st false m).1 false none).2])) := by
  simp only [readyStep]
  rw [if_pos h]

theorem readyStep_skip (st : CACState) (m : Nat)
    (h : ¬ st.selfIndex ∉ (sigsAt st m).signedReady) :
    readyStep st m = (st, ([], [])) := by
  simp only [readyStep]
  rw [if_neg h]

theorem fastStep_fire (env : CACEnv) (st : CACState) (m : Nat)
    (h : 5 * st.t < st.n ∧ st.n - st.t ≤ (sigsAt st m).witnessCount ∧
      st.signaturesCount.length = 1 ∧ m ∉ st.deliveredMessages) :
    fastStep env st m =
      ({ st with
          messages := mupd st.messages m (fun o => o.getD env.defaultMsg) },
        [⟨m, mfindD st.messages m env.defaultMsg, [m],
          st.validSignatures⟩]) := by
  simp only [fastStep]
  rw [if_pos h]

theorem readyStep_delivered (st : CACState) (m : Nat) :
    (readyStep st m).1.deliveredMessages = st.deliveredMessages := by
  unfold readyStep
  split <;> rfl

theorem fastStep_delivered (env : CACEnv) (st : CACState) (m : Nat) :
    (fastStep env st m).1.deliveredMessages = st.deliveredMessages := by
  unfold fastStep
  split <;> rfl

theorem readyFastLoop_delivered (env : CACEnv) (L : List Nat) :
    ∀ st : CACState,
    (readyFastLoop env st L).1.deliveredMessages = st.deliveredMessages := by
  induction L with
  | nil => intro st; rfl
  | cons m rest ih =>
    intro st
    show (readyFastLoop env (fastStep env (readyStep st m).1 m).1
      rest).1.deliveredMessages = st.deliveredMessages
    rw [ih, fastStep_delivered, readyStep_delivered]

theorem scanWitnessLoop_delivered (minW : Nat) (L : List (Nat × MessageSigs)) :
    ∀ st : CACState,
    (scanWitnessLoop st minW L).1.deliveredMessages = st.deliveredMessages := by
  induction L with
  | nil => intro st; rfl
  | cons p rest ih =>
    intro st
    obtain ⟨r, ms⟩ := p
    simp only [scanWitnessLoop]
    split
    · split
      · show (scanWitnessLoop
          (broadcastMessage (emitSignature st true r).1 true none).1 minW
          rest).1.deliveredMessages = st.deliveredMessages
        rw [ih]
        rfl
      · exact ih _
    · exact ih st

theorem transmitPhase_delivered (env : CACEnv) (st : CACState) :
    (transmitPhase env st).1.deliveredMessages = st.deliveredMessages := rfl

theorem choicePhase_delivered (env : CACEnv) (st : CACState) :
    (choicePhase env st).1.deliveredMessages = st.deliveredMessages := by
  unfold choicePhase
  split <;> rfl

theorem quorumPhase_delivered (env : CACEnv) (st : CACState) :
    (quorumPhase env st).1.deliveredMessages = st.deliveredMessages := by
  unfold quorumPhase
  split
  · exact readyFastLoop_delivered env _ st
  · rfl

theorem latePhase_delivered (st : CACState) :
    (latePhase st).1.deliveredMessages = st.deliveredMessages := by
  simp only [latePhase]
  split
  · split
    · rfl
    · exact scanWitnessLoop_delivered _ _ st
  · rfl

/-- receivedWitness leaves m_deliveredMessages untouched in every case:
the fast-path delivery does not mark its ref as delivered. -/
theorem receivedWitness_delivered (env : CACEnv) (st : CACState) :
    (receivedWitness env st).1.deliveredMessages = st.deliveredMessages := by
  unfold receivedWitness
  rw [latePhase_delivered, quorumPhase_delivered, choicePhase_delivered,
    transmitPhase_delivered]

theorem deliverLoop_delivered_mono (env : CACEnv) (cs : List Nat)
    (L : List Nat) : ∀ st : CACState,
    st.deliveredMessages ⊆ (deliverLoop env st cs L).1.deliveredMessages := by
  induction L with
  | nil => intro st; exact fun x hx => hx
  | cons r rest ih =>
    intro st
    by_cases hc : st.qr ≤ (sigsAt st r).readyCount ∧ r ∉ st.deliveredMessages
    · rw [deliverLoop_cons_deliver env st cs r rest hc]
      intro x hx
      exact ih _ (Finset.mem_insert_of_mem hx)
    · rw [deliverLoop_cons_skip env st cs r rest hc]
      exact ih st

/-- The deliverLoop of receivedReady, by contrast, inserts every ref it
delivers into m_deliveredMessages. -/
theorem deliverLoop_inserts (env : CACEnv) (cs : List Nat) (L : List Nat) :
    ∀ st : CACState, ∀ d ∈ (deliverLoop env st cs L).2,
      d.ref ∈ (deliverLoop env st cs L).1.deliveredMessages := by
  induction L with
  | nil => intro st d hd; exact absurd hd (List.not_mem_nil d)
  | cons r rest ih =>
    intro st d hd
    by_cases hc : st.qr ≤ (sigsAt st r).readyCount ∧ r ∉ st.deliveredMessages
    · rw [deliverLoop_cons_deliver env st cs r rest hc] at hd ⊢
      rcases List.mem_cons.mp hd with hd | hd
      · subst hd
        exact deliverLoop_delivered_mono env cs rest _
          (Finset.mem_insert_self r _)
      · exact ih _ d hd
    · rw [deliverLoop_cons_skip env st cs r rest hc] at hd ⊢
      exact ih st d hd

theorem choicePhase_skip (env : CACEnv) (st : CACState)
    (h : st.sigCount ≠ 0) :
    choicePhase env st = (st, CACOut.empty) := by
  simp [choicePhase, h]

theorem latePhase_skip (st : CACState) (h : st.hasSentReady = true) :
    latePhase st = (st, CACOut.empty) := by
  simp [latePhase, h]

theorem quorumPhase_fire (env : CACEnv) (st : CACState)
    (h : st.signaturesCount.any
      (fun p => (st.n + st.t) / 2 + 1 ≤ p.2.witnessCount) = true) :
    quorumPhase env st =
      ((readyFastLoop env st (messagesWithEnoughWitness st)).1,
        ⟨[], (readyFastLoop env st (messagesWithEnoughWitness st)).2.1,
          (readyFastLoop env st (messagesWithEnoughWitness st)).2.2.1,
          (readyFastLoop env st (messagesWithEnoughWitness st)).2.2.2⟩) := by
  simp only [quorumPhase]
  rw [if_pos h]

theorem readyFastLoop_single (env : CACEnv) (st : CACState) (m : Nat) :
    readyFastLoop env st [m] =
      ((fastStep env (readyStep st m).1 m).1,
        ((readyStep st m).2.1, (readyStep st m).2.2,
          (fastStep env (readyStep st m).1 m).2)) := by
  simp [readyFastLoop]

/-- With self already signed, a witness quorum present and no READY sent
(so the late block is skipped), receivedWitness is exactly the
transmit-and-quorum pipeline. -/
theorem receivedWitness_quorum_only (env : CACEnv) (st : CACState)
    (hsig : st.sigCount ≠ 0)
    (hguard : st.signaturesCount.any
      (fun p => (st.n + st.t) / 2 + 1 ≤ p.2.witnessCount) = true)
    (hready2 : (readyFastLoop env (transmitPhase env st).1
      (messagesWithEnoughWitness
        (transmitPhase env st).1)).1.hasSentReady = true) :
    receivedWitness env st =
      ((readyFastLoop env (transmitPhase env st).1
          (messagesWithEnoughWitness (transmitPhase env st).1)).1,
        ⟨(transmitPhase env st).2,
          (readyFastLoop env (transmitPhase env st).1
            (messagesWithEnoughWitness (transmitPhase env st).1)).2.1,
          (readyFastLoop env (transmitPhase env st).1
            (messagesWithEnoughWitness (transmitPhase env st).1)).2.2.1,
          (readyFastLoop env (transmitPhase env st).1
            (messagesWithEnoughWitness (transmitPhase env st).1)).2.2.2⟩) := by
  have hB : choicePhase env (transmitPhase env st).1 =
      ((transmitPhase env st).1, CACOut.empty) :=
    choicePhase_skip env (transmitPhase env st).1 hsig
  have hQ := quorumPhase_fire env (transmitPhase env st).1 hguard
  have hL := latePhase_skip (readyFastLoop env (transmitPhase env st).1
    (messagesWithEnoughWitness (transmitPhase env st).1)).1 hready2
  unfold receivedWitness
  rw [hB]
  dsimp only
  rw [hQ]
  dsimp only
  rw [hL]
  simp [CACOut.merge, CACOut.empty]

/-- One READY-emission step on a state tracking a single ref: the ref
stays the single tracked entry, its witness signers are untouched, and
so are the parameters and the delivered set; a true m_hasSentReady and a
nonzero signature count survive. -/
theorem readyStep_self (st : CACState) (r : Nat) (ms : MessageSigs)
    (hsc : st.signaturesCount = [(r, ms)]) :
    ∃ ms2 : MessageSigs,
      (readyStep st r).1.signaturesCount = [(r, ms2)] ∧
      ms2.witnessCount = ms.witnessCount ∧
      (readyStep st r).1.n = st.n ∧
      (readyStep st r).1.t = st.t ∧
      (readyStep st r).1.qw = st.qw ∧
      (readyStep st r).1.deliveredMessages = st.deliveredMessages ∧
      (st.sigCount ≠ 0 → (readyStep st r).1.sigCount ≠ 0) ∧
      (st.hasSentReady = true → (readyStep st r).1.hasSentReady = true) := by
  by_cases hsr : st.selfIndex ∉ (sigsAt st r).signedReady
  · rw [readyStep_emit st r hsr]
    dsimp only
    refine ⟨⟨ms.signedWitness, insert st.selfIndex ms.signedReady⟩,
      ?_, rfl, rfl, rfl, rfl, rfl, fun _ => Nat.succ_ne_zero _, fun _ => rfl⟩
    rw [(emit_bcast_fields st false r
      none).2.2.2.2.2.2.2.2.2.2.2.2.2.2.1, hsc]
    simp [mupd]
  · rw [readyStep_skip st r hsr]
    exact ⟨ms, hsc, rfl, rfl, rfl, rfl, rfl, fun h => h, fun h => h⟩

/-- The fast-path branch fires on a single-entry state with a n - t
witness count on an undelivered ref. -/
theorem fastStep_self (env : CACEnv) (s : CACState) (r : Nat)
    (ms2 : MessageSigs)
    (hsc : s.signaturesCount = [(r, ms2)])
    (h5t : 5 * s.t < s.n)
    (hwc : s.n - s.t ≤ ms2.witnessCount)
    (hnd : r ∉ s.deliveredMessages) :
    fastStep env s r =
      ({ s with
          messages := mupd s.messages r (fun o => o.getD env.defaultMsg) },
        [⟨r, mfindD s.messages r env.defaultMsg, [r],
          s.validSignatures⟩]) := by
  apply fastStep_fire
  refine ⟨h5t, ?_, by rw [hsc]; rfl, hnd⟩
  unfold sigsAt
  rw [hsc]
  simpa [mfind] using hwc

/-- One receivedWitness round in the fast-path configuration: the single
tracked ref is delivered upward, and the resulting state satisfies the
very same configuration again (delivered set untouched included). -/
theorem receivedWitness_fastpath (env : CACEnv) (st : CACState) (r : Nat)
    (ms : MessageSigs)
    (hsc : st.signaturesCount = [(r, ms)])
    (hwc : st.n - st.t ≤ ms.witnessCount)
    (h5t : 5 * st.t < st.n)
    (hqw : st.qw ≤ st.n - st.t)
    (hnd : r ∉ st.deliveredMessages)
    (hsig : st.sigCount ≠ 0)
    (hready : st.hasSentReady = true) :
    ∃ ms2 : MessageSigs,
      (∃ d ∈ (receivedWitness env st).2.delivers, d.ref = r) ∧
      (receivedWitness env st).1.signaturesCount = [(r, ms2)] ∧
      ms2.witnessCount = ms.witnessCount ∧
      (receivedWitness env st).1.n = st.n ∧
      (receivedWitness env st).1.t = st.t ∧
      (receivedWitness env st).1.qw = st.qw ∧
      (receivedWitness env st).1.deliveredMessages = st.deliveredMessages ∧
      (receivedWitness env st).1.sigCount ≠ 0 ∧
      (receivedWitness env st).1.hasSentReady = true := by
  have hscA : (transmitPhase env st).1.signaturesCount = [(r, ms)] := hsc
  have hguard : st.signaturesCount.any
      (fun p => (st.n + st.t) / 2 + 1 ≤ p.2.witnessCount) = true := by
    rw [hsc]
    simp only [List.any_cons, List.any_nil, Bool.or_false, decide_eq_true_eq]
    omega
  have hMW : messagesWithEnoughWitness (transmitPhase env st).1 = [r] := by
    unfold messagesWithEnoughWitness
    rw [hscA]
    have hq : (transmitPhase env st).1.qw ≤ ms.witnessCount := by
      show st.qw ≤ ms.witnessCount
      omega
    simp [List.filter_cons, hq]
  obtain ⟨ms2, h2sc, h2w, h2n, h2t, h2qw, h2del, h2sig, h2r⟩ :=
    readyStep_self (transmitPhase env st).1 r ms hscA
  have hfs := fastStep_self env (readyStep (transmitPhase env st).1 r).1 r ms2
    h2sc (by rw [h2t, h2n]; exact h5t) (by rw [h2n, h2t, h2w]; exact hwc)
    (by rw [h2del]; exact hnd)
  have hloop : readyFastLoop env (transmitPhase env st).1 [r] =
      ({ (readyStep (transmitPhase env st).1 r).1 with
          messages := mupd (readyStep (transmitPhase env st).1 r).1.messages r
            (fun o => o.getD env.defaultMsg) },
        ((readyStep (transmitPhase env st).1 r).2.1,
         (readyStep (transmitPhase env st).1 r).2.2,
         [⟨r, mfindD (readyStep (transmitPhase env st).1 r).1.messages r
            env.defaultMsg, [r],
           (readyStep (transmitPhase env st).1 r).1.validSignatures⟩])) := by
    rw [readyFastLoop_single, hfs]
  have hready2 : (readyFastLoop env (transmitPhase env st).1
      (messagesWithEnoughWitness
        (transmitPhase env st).1)).1.hasSentReady = true := by
    rw [hMW, hloop]
    exact h2r hready
  have hrw := receivedWitness_quorum_only env st hsig hguard hready2
  rw [hrw, hMW, hloop]
  refine ⟨ms2,
    ⟨⟨r, mfindD (readyStep (transmitPhase env st).1 r).1.messages r
        env.defaultMsg, [r],
      (readyStep (transmitPhase env st).1 r).1.validSignatures⟩,
      List.mem_singleton_self _, rfl⟩,
    h2sc, h2w, h2n, h2t, h2qw, h2del, h2sig hsig, h2r hready⟩

/-- C7: in the immediate-delivery fast path of WITNESS processing
(n > 5t, the single tracked ref holds at least n - t witness signatures
and is not in m_deliveredMessages), m_deliver is invoked although
receivedWitness never writes m_deliveredMessages on any state; only the
deliverLoop of receivedReady inserts delivered refs there; consequently a
second receivedWitness round fast-path delivers the very same ref
again. -/
theorem fastpath_no_dedup (env : CACEnv) (st : CACState) (r : Nat)
    (ms : MessageSigs)
    (hk : st.k = 1) (hqw : st.qw = 4 * st.t + st.k)
    (hsc : st.signaturesCount = [(r, ms)])
    (hwc : st.n - st.t ≤ ms.witnessCount)
    (h5t : 5 * st.t < st.n)
    (hnd : r ∉ st.deliveredMessages)
    (hsig : st.sigCount ≠ 0)
    (hready : st.hasSentReady = true) :
    (∀ st2 : CACState,
      (receivedWitness env st2).1.deliveredMessages = st2.deliveredMessages) ∧
    (∀ (env2 : CACEnv) (s : CACState) (cs L : List Nat),
      ∀ d ∈ (deliverLoop env2 s cs L).2,
        d.ref ∈ (deliverLoop env2 s cs L).1.deliveredMessages) ∧
    (∃ d ∈ (receivedWitness env st).2.delivers, d.ref = r) ∧
    (∃ d ∈ (receivedWitness env (receivedWitness env st).1).2.delivers,
      d.ref = r) := by
  have hqw1 : st.qw ≤ st.n - st.t := by omega
  obtain ⟨ms2, hd1, hsc2, hw2, hn2, ht2, hqw2, hdel2, hsig2, hready2⟩ :=
    receivedWitness_fastpath env st r ms hsc hwc h5t hqw1 hnd hsig hready
  refine ⟨fun st2 => receivedWitness_delivered env st2,
    fun env2 s cs L d hd => deliverLoop_inserts env2 cs L s d hd, hd1, ?_⟩
  obtain ⟨ms3, hd3, _⟩ :=
    receivedWitness_fastpath env (receivedWitness env st).1 r ms2 hsc2
      (by rw [hn2, ht2, hw2]; exact hwc)
      (by rw [hn2, ht2]; exact h5t)
      (by rw [hn2, ht2, hqw2]; exact hqw1)
      (by rw [hdel2]; exact hnd)
      hsig2 hready2
  exact hd3

/-- A newEpoch(n = 6) state (k = 1, t = 1, qw = 5, qr = 5) in fast-path
position: a single tracked ref with n - t = 5 witness signatures, not
delivered, self has signed and a READY is already out. -/
def fpSt : CACState :=
  ⟨1, 6, 1, 5, 5, 0, 1, true, [(4, 44)], [], ∅, ∅, ∅, ∅, [],
    [(4, ⟨{0, 1, 2, 3, 4}, ∅⟩)]⟩

/-- Concrete C7 instantiation: ref 4 is fast-path delivered by one
receivedWitness round and again by the next one. -/
theorem fastpath_no_dedup_witness :
    (∃ d ∈ (receivedWitness cacEnv0 fpSt).2.delivers, d.ref = 4) ∧
    (∃ d ∈ (receivedWitness cacEnv0 (receivedWitness cacEnv0 fpSt).1).2.delivers,
      d.ref = 4) := by
  have h := fastpath_no_dedup cacEnv0 fpSt 4 ⟨{0, 1, 2, 3, 4}, ∅⟩
    (by decide) (by decide) (by decide) (by decide) (by decide) (by decide)
    (by decide) rfl
  exact ⟨h.2.2.1, h.2.2.2⟩

end DMLS.CAC

namespace DMLS.CAC

/-!
## C4 — the choices vector built by validateMessage

The choices handed to the Choice callback are operator[] reads of
m_messages, not the validated messages themselves: validateMessage never
stores its argument into m_messages, so a validated ref whose payload
has not reached m_messages contributes a default-constructed placeholder.
-/

theorem choicesFold (env : CACEnv) (L : List Nat) : L.Nodup →
    ∀ (ms : Mmap Nat) (acc : List Nat),
    (L.foldl (fun acc r =>
        (acc.1 ++ [mfindD acc.2 r env.defaultMsg],
          mupd acc.2 r (fun o => o.getD env.defaultMsg)))
      (acc, ms)).1 =
      acc ++ L.map (fun rf => mfindD ms rf env.defaultMsg) := by
  induction L with
  | nil => intro _ ms acc; simp
  | cons r rest ih =>
    intro hnd ms acc
    obtain ⟨hr, hnd2⟩ := List.nodup_cons.mp hnd
    rw [List.foldl_cons]
    dsimp only
    rw [ih hnd2 (mupd ms r (fun o => o.getD env.defaultMsg))
      (acc ++ [mfindD ms r env.defaultMsg])]
    rw [List.map_cons, List.append_assoc]
    congr 1
    show mfindD ms r env.defaultMsg ::
      rest.map (fun rf =>
        mfindD (mupd ms r (fun o => o.getD env.defaultMsg)) rf
          env.defaultMsg) = _
    congr 1
    refine List.map_congr_left (fun rf hrf => ?_)
    unfold mfindD
    rw [mfind_mupd_ne ms r rf _ (fun he => hr (he ▸ hrf))]

theorem choicesFold_snd (env : CACEnv) (L : List Nat) :
    ∀ (ms : Mmap Nat) (acc : List Nat),
    (L.foldl (fun acc r =>
        (acc.1 ++ [mfindD acc.2 r env.defaultMsg],
          mupd acc.2 r (fun o => o.getD env.defaultMsg)))
      (acc, ms)).2 =
      L.foldl (fun ms r => mupd ms r (fun o => o.getD env.defaultMsg)) ms := by
  induction L with
  | nil => intro ms acc; rfl
  | cons r rest ih =>
    intro ms acc
    rw [List.foldl_cons, List.foldl_cons]
    exact ih _ _

/-- The choices vector is one operator[] read of m_messages per validated
ref, in set order, against the original payload store. -/
theorem choicesOf_fst (env : CACEnv) (st : CACState) :
    (choicesOf env st).1 = (st.validMessages.sort (· ≤ ·)).map
      (fun rf => mfindD st.messages rf env.defaultMsg) := by
  unfold choicesOf
  have h := choicesFold env (st.validMessages.sort (· ≤ ·))
    (Finset.sort_nodup _ _) st.messages []
  simpa using h

theorem choicesOf_snd (env : CACEnv) (st : CACState) :
    (choicesOf env st).2 = (st.validMessages.sort (· ≤ ·)).foldl
      (fun ms r => mupd ms r (fun o => o.getD env.defaultMsg)) st.messages := by
  unfold choicesOf
  exact choicesFold_snd env _ st.messages []

theorem signChoice_fire (env : CACEnv) (st0 : CACState)
    (h : st0.sigCount = 0) :
    signChoice env st0 =
      ((broadcastMessage (emitSignature { st0 with
            messages := (choicesOf env st0).2,
            waitingMessages := st0.waitingMessages.erase
              (env.mref (env.choice (choicesOf env st0).1)) } true
            (env.mref (env.choice (choicesOf env st0).1))).1 true
          (some (env.choice (choicesOf env st0).1))).1,
        ⟨[], [(emitSignature { st0 with
            messages := (choicesOf env st0).2,
            waitingMessages := st0.waitingMessages.erase
              (env.mref (env.choice (choicesOf env st0).1)) } true
            (env.mref (env.choice (choicesOf env st0).1))).2],
          [(broadcastMessage (emitSignature { st0 with
            messages := (choicesOf env st0).2,
            waitingMessages := st0.waitingMessages.erase
              (env.mref (env.choice (choicesOf env st0).1)) } true
            (env.mref (env.choice (choicesOf env st0).1))).1 true
            (some (env.choice (choicesOf env st0).1))).2], []⟩) := by
  simp only [signChoice]
  rw [if_pos h]

theorem validateMessage_no_waiting (env : CACEnv) (st : CACState) (m : Nat)
    (h : env.mref m ∉ (signChoice env { st with
      validMessages := insert (env.mref m) st.validMessages
        }).1.waitingMessages) :
    validateMessage env st m =
      signChoice env { st with
        validMessages := insert (env.mref m) st.validMessages } := by
  simp only [validateMessage]
  rw [if_neg h]

end DMLS.CAC

namespace DMLS.CAC

/-- C4 (amended): while self has not signed (sigCount = 0) and the new
ref is not queued in m_waitingMessages, validateMessage(m) hands the
Choice callback the m_messages payload slot of every validated ref — the
default-constructed placeholder standing in for any validated ref whose
payload never reached m_messages, since validateMessage does not store m
there — and emits one WITNESS whose ref is mref of the chosen payload,
which need not be the ref of any message previously passed to
validateMessage. -/
theorem validateMessage_spec (env : CACEnv) (st : CACState) (m : Nat)
    (hsig : st.sigCount = 0)
    (hnw : env.mref m ∉ st.waitingMessages) :
    (validateMessage env st m).2.emitted =
      [⟨st.selfIndex, st.sigCount, true,
        env.mref (env.choice
          (((insert (env.mref m) st.validMessages).sort (· ≤ ·)).map
            (fun rf => mfindD st.messages rf env.defaultMsg)))⟩] ∧
    (validateMessage env st m).1.validMessages =
      insert (env.mref m) st.validMessages ∧
    (∀ rf, rf ∉ mkeys st.messages →
      mfindD st.messages rf env.defaultMsg = env.defaultMsg) := by
  have hfire := signChoice_fire env
    { st with validMessages := insert (env.mref m) st.validMessages } hsig
  have hnw2 : env.mref m ∉ (signChoice env { st with
      validMessages := insert (env.mref m) st.validMessages
        }).1.waitingMessages := by
    rw [hfire]
    exact fun h => hnw (Finset.mem_of_mem_erase h)
  rw [validateMessage_no_waiting env st m hnw2, hfire, choicesOf_fst]
  refine ⟨rfl, rfl, fun rf h => ?_⟩
  unfold mfindD
  rw [mfind_eq_none st.messages rf h]
  rfl

/-- A fresh signed-nothing state: no payload has ever been recorded in
m_messages. -/
def vmSt : CACState :=
  ⟨1, 6, 1, 5, 5, 0, 0, false, [], [], ∅, ∅, ∅, ∅, [], []⟩

/-- Concrete instantiation of the amended C4 on the fresh state. -/
theorem validateMessage_spec_witness :
    vmSt.sigCount = 0 ∧ cacEnv0.mref 5 ∉ vmSt.waitingMessages ∧
    (validateMessage cacEnv0 vmSt 5).2.emitted =
      [⟨vmSt.selfIndex, vmSt.sigCount, true,
        cacEnv0.mref (cacEnv0.choice
          (((insert (cacEnv0.mref 5) vmSt.validMessages).sort (· ≤ ·)).map
            (fun rf => mfindD vmSt.messages rf cacEnv0.defaultMsg)))⟩] := by
  have h := validateMessage_spec cacEnv0 vmSt 5 rfl (by decide)
  exact ⟨rfl, by decide, h.1⟩

/-- Refutation of C4 as stated: validateMessage(5) on the fresh state
validates only ref 5 (mref 5 = 5), yet the emitted WITNESS carries ref 0
— not the ref of any message ever passed to validateMessage — because
the Choice callback received the placeholder payload 0, not the
validated message 5; and the payload recorded under the validated ref 5
is the placeholder 0, not 5. -/
theorem validateMessage_counterexample :
    vmSt.sigCount = 0 ∧
    (validateMessage cacEnv0 vmSt 5).2.emitted = [⟨0, 0, true, 0⟩] ∧
    (validateMessage cacEnv0 vmSt 5).1.validMessages = {5} ∧
    cacEnv0.mref 5 = 5 ∧
    (0 : Nat) ∉ ({5} : Finset Nat) ∧
    mfind (validateMessage cacEnv0 vmSt 5).1.messages 5 =
      some cacEnv0.defaultMsg ∧
    cacEnv0.defaultMsg ≠ 5 := by
  have hfire := signChoice_fire cacEnv0
    { vmSt with validMessages := insert (cacEnv0.mref 5) vmSt.validMessages }
    rfl
  have hnw2 : cacEnv0.mref 5 ∉ (signChoice cacEnv0 { vmSt with
      validMessages := insert (cacEnv0.mref 5) vmSt.validMessages
        }).1.waitingMessages := by
    rw [hfire]
    exact fun h => Finset.not_mem_empty _ (Finset.mem_of_mem_erase h)
  have hsort : ({ vmSt with
      validMessages := insert (cacEnv0.mref 5) vmSt.validMessages
      } : CACState).validMessages.sort (· ≤ ·) = [5] := by
    rw [show ({ vmSt with
      validMessages := insert (cacEnv0.mref 5) vmSt.validMessages
      } : CACState).validMessages = ({5} : Finset Nat) by decide]
    exact Finset.sort_singleton _ 5
  rw [validateMessage_no_waiting cacEnv0 vmSt 5 hnw2, hfire, choicesOf_fst,
    choicesOf_snd, hsort]
  exact ⟨rfl, by decide, by decide, rfl, by decide, by decide, by decide⟩

end DMLS.CAC
